import Mathlib

/-!
Verification of the RateMyProfessor browser-extension core logic.

Shallow embedding of the repository's decision logic:
* `src/utils/stringUtils.js`   — Jaro-Winkler, nickname table, `scoreProfessor`
* `src/data/departmentMapping.js` — `DEPARTMENT_MAP`, `normalizeDepartment`
* `src/content/contentScript.js`  — `SchoolScorer` (candidate cleaning / rejection / best match)
* `src/services/rmpService.js`    — collaborator wrappers over a transport oracle
* the background service worker   — `handleSearchProfessor` resolution waterfall

JavaScript numbers are modelled as exact rationals (`ℚ`), strings as Lean
`String`s over their character lists, nullable values as `Option`, and the
network as an explicit transport oracle returning `Except`.
-/

namespace RMP

/-! ## Jaro-Winkler (`src/utils/stringUtils.js`, `jaroWinkler`, lines 6-54)

The two boolean "matches" arrays of the source are represented by the list of
matched index pairs `(i, j)` produced in increasing `i` order; a `j` is
"marked" exactly when it occurs as the second component of an accumulated
pair.  The inner `for (let j = start; j < end; j++) ... break` loop is the
scan `jwScan` returning the first eligible `j`. -/

/-- The inner scan of the match loop: the smallest `j` with
`start ≤ j < stop`, `j` not yet matched, and `s2[j] = c` (source lines 23-30).
The first argument is the number of indices left to scan (`stop - j`), so the
recursion is structural and computable by the kernel. -/
def jwScan (c : Char) (b : List Char) (used : List Nat) : Nat → Nat → Option Nat
  | 0, _ => none
  | fuel + 1, j =>
    if used.contains j = false ∧ b.get? j = some c then some j
    else jwScan c b used fuel (j + 1)

/-- The outer match loop (source lines 19-31): the remaining characters of `s1`
are processed one by one while `i` tracks the index of the head; for each `i`
the scan window is `[max(0, i - mw), min(i + mw + 1, s2.length))`. -/
def jwLoop (b : List Char) (mw : Int) : List Char → Nat → List (Nat × Nat) → List (Nat × Nat)
  | [], _, acc => acc
  | c :: rest, i, acc =>
    let start := ((i : Int) - mw).toNat
    let stop := min ((i : Int) + mw + 1).toNat b.length
    match jwScan c b (acc.map Prod.snd) (stop - start) start with
    | some j => jwLoop b mw rest (i + 1) (acc ++ [(i, j)])
    | none => jwLoop b mw rest (i + 1) acc

/-- All match pairs of the greedy Jaro match pass. -/
def jwPairs (a b : List Char) (mw : Int) : List (Nat × Nat) :=
  jwLoop b mw a 0 []

/-- The transposition count `t` (source lines 35-44): the `k` pointer walks the
matched positions of `s2` in increasing order, so the walk compares the matched
characters of `s1` (in `i` order) with the matched characters of `s2`
(in `j` order), counting disagreements, halved. -/
def jwT (a b : List Char) (pairs : List (Nat × Nat)) : ℚ :=
  let seq1 := pairs.map (fun pr => a.getD pr.1 ' ')
  let js := (List.range b.length).filter (fun j => (pairs.map Prod.snd).contains j)
  let seq2 := js.map (fun j => b.getD j ' ')
  (((seq1.zip seq2).countP (fun pr => pr.1 ≠ pr.2) : ℚ)) / 2

/-- The Winkler common-prefix length (source line 51):
`while (l < 4 && s1[l] === s2[l]) l++`.  Out-of-range access yields JS
`undefined`, and `undefined === undefined`, so the faithful condition is
equality of the two `Option Char` lookups.  The first argument is the number
of loop iterations still allowed (`4 - l`). -/
def jwPrefixLen (a b : List Char) : Nat → Nat → Nat
  | 0, l => l
  | fuel + 1, l => if a.get? l = b.get? l then jwPrefixLen a b fuel (l + 1) else l

/-- `s.toLowerCase()` on the underlying character list (ASCII case folding,
as in Lean's own `Char.toLower`). -/
def lowerChars (s : String) : List Char :=
  s.data.map Char.toLower

/-- `jaroWinkler` (source lines 6-54), over exact rationals.
`matchWindow = floor(max(len1,len2)/2) - 1` is computed in `Int` because it is
`-1` for two one-character strings, which makes the scan window empty. -/
def jaroWinkler (s1 s2 : String) : ℚ :=
  if s1.length = 0 ∨ s2.length = 0 then 0
  else
    let a := lowerChars s1
    let b := lowerChars s2
    let mw : Int := (max a.length b.length : Int) / 2 - 1
    let pairs := jwPairs a b mw
    let m := pairs.length
    if m = 0 then 0
    else
      let t := jwT a b pairs
      let dw := ((m : ℚ) / a.length + (m : ℚ) / b.length + ((m : ℚ) - t) / m) / 3
      let l := jwPrefixLen a b 4 0
      dw + (l : ℚ) * mkRat 1 10 * (1 - dw)

/-! ## Generic JavaScript string-primitive models (over `List Char`) -/

/-- Does `p` occur at the very start of `l`? (helper for `String.prototype.includes`
and anchored regexes). -/
def leadMatches : List Char → List Char → Bool
  | _, [] => true
  | [], _ :: _ => false
  | c :: cs, d :: ds => c = d && leadMatches cs ds

/-- `s.includes(sub)` — substring containment; `"x".includes("")` is `true`. -/
def strIncludes : List Char → List Char → Bool
  | [], p => p.isEmpty
  | c :: rest, p => leadMatches (c :: rest) p || strIncludes rest p

/-- ASCII lowering of a character list (`toLowerCase`). -/
def lowerList (l : List Char) : List Char :=
  l.map Char.toLower

/-- `s.trim()` — strip whitespace from both ends. -/
def trimChars (l : List Char) : List Char :=
  ((l.dropWhile Char.isWhitespace).reverse.dropWhile Char.isWhitespace).reverse

/-- `s.split(' ')` — split on every single space, keeping empty pieces;
always returns at least one piece. -/
def splitSpaceAux : List Char → List Char → List (List Char)
  | [], cur => [cur.reverse]
  | c :: rest, cur => if c = ' ' then cur.reverse :: splitSpaceAux rest [] else splitSpaceAux rest (c :: cur)

/-- `s.split(' ')` on a character list. -/
def splitOnSpace (l : List Char) : List (List Char) :=
  splitSpaceAux l []

/-- `.replace(/[^a-z]/g, '')` — keep only lowercase ASCII letters. -/
def keepLowerAlpha (l : List Char) : List Char :=
  l.filter (fun c => decide ('a' ≤ c) && decide (c ≤ 'z'))

/-- `s.toLowerCase()` as a `String`. -/
def strLower (s : String) : String :=
  ⟨lowerChars s⟩

/-! ## Nicknames and `scoreProfessor` (`src/utils/stringUtils.js`, lines 56-174) -/

/-- `COMMON_NICKNAMES` (source lines 57-102), verbatim. -/
def COMMON_NICKNAMES : List (String × List String) := [
  ("liz", ["elizabeth", "liza", "beth"]),
  ("beth", ["elizabeth", "bethany"]),
  ("bill", ["william"]),
  ("will", ["william", "willard"]),
  ("bob", ["robert"]),
  ("rob", ["robert"]),
  ("dick", ["richard", "rich"]),
  ("rich", ["richard"]),
  ("tom", ["thomas"]),
  ("chris", ["christopher", "christian", "christina"]),
  ("mike", ["michael"]),
  ("matt", ["matthew"]),
  ("jon", ["jonathan", "john"]),
  ("john", ["jonathan"]),
  ("alex", ["alexander", "alexandra", "alexis"]),
  ("sam", ["samuel", "samantha"]),
  ("dan", ["daniel"]),
  ("danny", ["daniel"]),
  ("dave", ["david"]),
  ("andy", ["andrew"]),
  ("joe", ["joseph"]),
  ("steve", ["stephen", "steven"]),
  ("jen", ["jennifer"]),
  ("jenny", ["jennifer"]),
  ("kat", ["katherine", "kathryn", "kathleen"]),
  ("kate", ["katherine", "kathryn"]),
  ("kathy", ["katherine", "kathleen"]),
  ("becky", ["rebecca"]),
  ("bec", ["rebecca"]),
  ("sue", ["susan", "suzanne"]),
  ("pat", ["patrick", "patricia"]),
  ("nick", ["nicholas"]),
  ("nate", ["nathan", "nathaniel"]),
  ("ben", ["benjamin"]),
  ("fred", ["frederick"]),
  ("greg", ["gregory"]),
  ("ed", ["edward", "edwin"]),
  ("ted", ["theodore", "edward"]),
  ("tim", ["timothy"]),
  ("jim", ["james"]),
  ("jimmy", ["james"]),
  ("josh", ["joshua"]),
  ("ken", ["kenneth"]),
  ("lizzy", ["elizabeth"])]

/-- `isNicknameMatch` (source lines 107-124). -/
def isNicknameMatch (name1 name2 : String) : Bool :=
  if name1 = "" ∨ name2 = "" then false
  else
    let n1 := strLower name1
    let n2 := strLower name2
    if n1 = n2 then true
    else if ((COMMON_NICKNAMES.lookup n1).getD []).contains n2 then true
    else if ((COMMON_NICKNAMES.lookup n2).getD []).contains n1 then true
    else false

/-- The directory record, restricted to the fields the core logic reads. -/
structure Prof where
  firstName : String
  lastName : String
  department : String
deriving DecidableEq

/-- First-name grading of `scoreProfessor` (source lines 147-161); never gates. -/
def firstNameScore (pFirst sFirst : String) : ℚ :=
  let firstScore := jaroWinkler pFirst sFirst
  if firstScore > mkRat 9 10 then 40
  else if isNicknameMatch sFirst pFirst then 35
  else if firstScore > mkRat 4 5 then 25
  else if strIncludes pFirst.data sFirst.data || strIncludes sFirst.data pFirst.data then 20
  else firstScore * 10

/-- Department bonus of `scoreProfessor` (source lines 163-171): `if (searchDept)`
is JS truthiness, and the two sides are compared lowercased with everything but
`[a-z]` removed. -/
def deptBonus (profDept : String) (searchDept : Option String) : ℚ :=
  match searchDept with
  | none => 0
  | some dept =>
    if dept = "" then 0
    else
      let pD := keepLowerAlpha (lowerChars profDept)
      let sD := keepLowerAlpha (lowerChars dept)
      if strIncludes pD sD || strIncludes sD pD then 15 else 0

/-- `scoreProfessor` (source lines 133-174).  The source accumulates into
`score` and returns `0` early when the last-name gate fails; the post-gate
additions are identical in the two passing branches, so they are factored as
`firstNameScore + deptBonus`. -/
def scoreProfessor (prof : Prof) (searchName : String) (searchDept : Option String) : ℚ :=
  let pFirst := strLower prof.firstName
  let pLast := strLower prof.lastName
  let parts := splitOnSpace (lowerChars searchName)
  let sFirst : String := ⟨parts.headD []⟩
  let sLast : String := ⟨parts.getLastD []⟩
  let lastScore := jaroWinkler pLast sLast
  if lastScore > mkRat 9 10 then
    50 + firstNameScore pFirst sFirst + deptBonus prof.department searchDept
  else if lastScore > mkRat 4 5 then
    30 + firstNameScore pFirst sFirst + deptBonus prof.department searchDept
  else 0

/-! ## `src/data/departmentMapping.js` -/

/-- `DEPARTMENT_MAP` (source lines 5-55), verbatim. -/
def DEPARTMENT_MAP : List (String × String) := [
  ("cs", "Computer Science"),
  ("cse", "Computer Science"),
  ("css", "Computer Science"),
  ("cis", "Computer Science"),
  ("compsci", "Computer Science"),
  ("eecs", "Electrical Engineering"),
  ("ee", "Electrical Engineering"),
  ("ce", "Computer Engineering"),
  ("swe", "Software Engineering"),
  ("bio", "Biology"),
  ("biol", "Biology"),
  ("chem", "Chemistry"),
  ("phys", "Physics"),
  ("math", "Mathematics"),
  ("stat", "Statistics"),
  ("psych", "Psychology"),
  ("psy", "Psychology"),
  ("soc", "Sociology"),
  ("anthro", "Anthropology"),
  ("eng", "English"),
  ("engl", "English"),
  ("hist", "History"),
  ("phil", "Philosophy"),
  ("rel", "Religion"),
  ("art", "Art"),
  ("mus", "Music"),
  ("bus", "Business"),
  ("mkt", "Marketing"),
  ("mktg", "Marketing"),
  ("acc", "Accounting"),
  ("acct", "Accounting"),
  ("fin", "Finance"),
  ("mgmt", "Management"),
  ("econ", "Economics"),
  ("comm", "Communications"),
  ("poly", "Political Science"),
  ("pol", "Political Science"),
  ("gov", "Political Science"),
  ("nurs", "Nursing"),
  ("edu", "Education")]

/-- `normalizeDepartment` (source lines 62-66): `!input` (null/undefined/empty)
returns `null`; otherwise look up the lowercased, letters-only form, falling
back to the original input (`DEPARTMENT_MAP[clean] || input`). -/
def normalizeDepartment : Option String → Option String
  | none => none
  | some input =>
    if input = "" then none
    else
      let clean : String := ⟨keepLowerAlpha (lowerChars input)⟩
      let v := (DEPARTMENT_MAP.lookup clean).getD ""
      some (if v = "" then input else v)

/-! ## `SchoolScorer` (`src/content/contentScript.js`, lines 4-50)

The page signals fed to `addCandidate` are modelled as an explicit list; the
`window.location.hostname.endsWith('.edu')` test is the `isEdu` flag.  The JS
`Map` is an insertion-ordered association list: `Map.set` on an existing key
updates in place, otherwise appends. -/

/-- The leading-boilerplate alternatives of the first `replace` (line 13),
lowercased; the regex is case-insensitive and anchored at the start. -/
def BOILER_LEADS : List String := ["welcome to ", "the ", "home ", "official site of "]

/-- Apply the first matching leading-boilerplate alternative. -/
def dropBoilerLead : List String → List Char → List Char
  | [], l => l
  | p :: ps, l =>
    if leadMatches (lowerList l) p.data then l.drop p.length else dropBoilerLead ps l

/-- The suffix-killer keywords of the second `replace` (line 14), lowercased. -/
def TAIL_KEYS : List String := ["home", "official page", "login", "portal", "course catalog", "student system"]

/-- Does the list start with `[|\-:–]` + `' '` + one of `TAIL_KEYS`
(case-insensitively)?  That is where `.replace(/.../i, '')` starts deleting. -/
def tailKillsHere (l : List Char) : Bool :=
  match l with
  | c :: ' ' :: rest =>
    (c = '|' || c = '-' || c = ':' || c = '–') &&
      TAIL_KEYS.any (fun k => leadMatches (lowerList rest) k.data)
  | _ => false

/-- Truncate at the leftmost suffix-killer match (the regex match runs to `$`). -/
def cutBoilerTail : List Char → List Char
  | [] => []
  | c :: rest => if tailKillsHere (c :: rest) then [] else c :: cutBoilerTail rest

/-- `.replace(/\.(com|edu|org|net)$/i, '')` (line 18). -/
def dropDomainExt (l : List Char) : List Char :=
  let low := lowerList l
  if [".com", ".edu", ".org", ".net"].any
      (fun e => leadMatches low.reverse e.data.reverse) then
    l.take (l.length - 4)
  else l

/-- The full cleaning pipeline of `addCandidate` (lines 13-18). -/
def cleanCandidate (name : String) : String :=
  ⟨dropDomainExt (trimChars (cutBoilerTail (dropBoilerLead BOILER_LEADS name.data)))⟩

/-- The institution keywords of the rejection test (line 23). -/
def SCHOOL_KEYWORDS : List String :=
  ["university", "college", "institute", "polytechnic", "academy", "school", "seminary"]

/-- `clean.match(/University|College|.../i)` — case-insensitive containment. -/
def hasSchoolKeyword (clean : String) : Bool :=
  SCHOOL_KEYWORDS.any (fun k => strIncludes (lowerChars clean) k.data)

/-- The generic-page full matches of line 32 (`/^(Login|...)$/i`). -/
def GENERIC_PAGES : List String :=
  ["login", "sign in", "dashboard", "courses", "welcome", "home", "index", "search", "help"]

/-- Whole-string, case-insensitive generic-page test. -/
def isGenericPage (clean : String) : Bool :=
  GENERIC_PAGES.contains ⟨lowerChars clean⟩

/-- JS `\w` (word character): `[A-Za-z0-9_]`. -/
def isWordChar (c : Char) : Bool :=
  (decide ('a' ≤ c) && decide (c ≤ 'z')) || (decide ('A' ≤ c) && decide (c ≤ 'Z')) ||
    c.isDigit || c = '_'

/-- `clean.match(/\b\d{3}\b/)` (line 33): three digits flanked by a word
boundary on each side; `prev` is the character preceding the scan position. -/
def threeDigitAux : Option Char → List Char → Bool
  | prev, d1 :: d2 :: d3 :: rest =>
    ((match prev with | none => true | some c => !isWordChar c) &&
     d1.isDigit && d2.isDigit && d3.isDigit &&
     (match rest with | [] => true | c :: _ => !isWordChar c)) ||
      threeDigitAux (some d1) (d2 :: d3 :: rest)
  | _, _ => false

/-- Three-digit course-code noise test. -/
def hasThreeDigitRun (clean : String) : Bool :=
  threeDigitAux none clean.data

/-- The course-title patterns of line 34, lowercased. -/
def COURSE_TITLE_PATTERNS : List String :=
  ["programming", "introduction", "history of", "chemistry of", "physics of", "biology of"]

/-- Case-insensitive course-title containment test. -/
def isCourseTitleLike (clean : String) : Bool :=
  COURSE_TITLE_PATTERNS.any (fun k => strIncludes (lowerChars clean) k.data)

/-- One entry of the scorer's `Map` (key, accumulated weight, provenance). -/
structure Candidate where
  cname : String
  weight : ℚ
  sources : List String
deriving DecidableEq

/-- The scorer's `Map`, in insertion order. -/
abbrev ScorerState := List Candidate

/-- `this.candidates.get(clean)`. -/
def mapGet (st : ScorerState) (k : String) : Option Candidate :=
  st.find? (fun c => c.cname == k)

/-- `this.candidates.set(clean, v)`: update in place, else append. -/
def mapSet (st : ScorerState) (k : String) (w : ℚ) (srcs : List String) : ScorerState :=
  if st.any (fun c => c.cname == k) then
    st.map (fun c => if c.cname == k then ⟨k, w, srcs⟩ else c)
  else st ++ [⟨k, w, srcs⟩]

/-- `SchoolScorer.addCandidate` (lines 9-41). -/
def addCandidate (isEdu : Bool) (st : ScorerState) (name : String) (weight : ℚ)
    (source : String) : ScorerState :=
  if name.length < 4 then st
  else
    let clean := cleanCandidate name
    if hasSchoolKeyword clean = false ∧ isEdu = false ∧
        source ≠ "meta-og" ∧ source ≠ "manual-override" then st
    else if isGenericPage clean then st
    else if hasThreeDigitRun clean then st
    else if isCourseTitleLike clean then st
    else
      let cur := (mapGet st clean).getD ⟨clean, 0, []⟩
      mapSet st clean (cur.weight + weight) (cur.sources ++ [source])

/-- First maximal-weight candidate (stable descending sort, then `sorted[0]`). -/
def bestAux (best : Candidate) : List Candidate → Candidate
  | [] => best
  | c :: rest => if c.weight > best.weight then bestAux c rest else bestAux best rest

/-- `SchoolScorer.getBestMatch` (lines 43-50): `null` on an empty map, else the
name of the first candidate of maximal accumulated weight. -/
def getBestMatch (st : ScorerState) : Option String :=
  match st with
  | [] => none
  | c :: rest => some (bestAux c rest).cname

/-- Fold a whole signal list into the scorer (one `scan()`'s `addCandidate` calls). -/
def runScorer (isEdu : Bool) (signals : List (String × ℚ × String)) : ScorerState :=
  signals.foldl (fun st sg => addCandidate isEdu st sg.1 sg.2.1 sg.2.2) []

/-! ## `RmpService` (`src/services/rmpService.js`)

The network (fetch + `response.ok` + JSON/edge extraction) is a transport
oracle returning `Except`; a transport `error` is any transport or parse
failure at that call. -/

/-- A school search-result node (`id`, `name`). -/
structure School where
  id : String
  name : String
deriving DecidableEq

/-- Equality of `Except` results is decidable (needed to evaluate concrete
transports). -/
instance {e a : Type} [DecidableEq e] [DecidableEq a] : DecidableEq (Except e a) := fun x y =>
  match x, y with
  | .error u, .error v =>
    if h : u = v then .isTrue (h ▸ rfl) else .isFalse (fun hc => h (by injection hc))
  | .ok u, .ok v =>
    if h : u = v then .isTrue (h ▸ rfl) else .isFalse (fun hc => h (by injection hc))
  | .error _, .ok _ => .isFalse (fun hc => by injection hc)
  | .ok _, .error _ => .isFalse (fun hc => by injection hc)

/-- The transport oracle behind the three GraphQL calls. -/
structure Transport where
  profEdges : String → String → Except String (List Prof)
  schoolEdges : String → Except String (List School)
  globalEdges : String → Except String (List Prof)

/-- `searchTeacherGlobal` (lines 18-65): the `catch` converts any failure into
`[]`. -/
def searchTeacherGlobal (t : Transport) (name : String) : List Prof :=
  match t.globalEdges name with
  | .ok nodes => nodes
  | .error _ => []

/-- `searchSchool` (lines 71-110): `!response.ok` and the `catch` both yield
`null`; otherwise the first edge's node, or `null` if there are no edges. -/
def searchSchool (t : Transport) (name : String) : Option School :=
  match t.schoolEdges name with
  | .ok edges => edges.head?
  | .error _ => none

/-- `searchProfessor` (lines 118-170): unlike the two calls above, the `catch`
block ends in `throw error`, so a transport failure is re-raised to the caller. -/
def searchProfessor (t : Transport) (name schoolID : String) : Except String (List Prof) :=
  match t.profEdges name schoolID with
  | .ok nodes => .ok nodes
  | .error e => .error e

/-! ## The resolution engine: `handleSearchProfessor` of the background
service worker (the version with the sticky-domain check, the manual-override
message and the `'Global Search'` label; `src/unnamed/part_001`, lines 38-166).

The run is modelled as a pure function of the transport, the sticky-cache
state and the request payload, returning the response sent, the new cache
state, and the trace of collaborator calls in order. -/

/-- The request payload (`request.payload`); absent / null fields are `none`. -/
structure Payload where
  name : String
  schoolDomain : String
  schoolName : Option String
  department : Option String
  course : Option String
deriving DecidableEq

/-- The module-level sticky cache (`cachedContext`, lines 27-31). -/
structure CachedContext where
  schoolID : Option String
  schoolName : Option String
  domain : Option String
deriving DecidableEq

/-- The initial cache: all fields `null`. -/
def emptyCache : CachedContext := ⟨none, none, none⟩

/-- What `sendResponse` receives; absent fields are `none` / `[]`. -/
structure Response where
  success : Bool
  data : List Prof
  schoolName : Option String
  error : Option String
deriving DecidableEq

/-- One collaborator call, in trace order. -/
inductive Call where
  | school : String → Call
  | global : String → Call
  | prof : String → String → Call
deriving DecidableEq

/-- JS truthiness of a nullable string: `null`/`undefined`/`""` are falsy. -/
def truthy : Option String → Bool
  | none => false
  | some s => s ≠ ""

/-- Result of one engine run: response, new sticky-cache state, call trace. -/
structure RunResult where
  resp : Response
  cache : CachedContext
  trace : List Call
deriving DecidableEq

/-- The honorific alternatives of `cleanName` (line 43), lowercased:
`/^(?:Prof\.|Dr\.|Mr\.|Ms\.|Mrs\.)\s+/i`. -/
def HONORIFICS : List String := ["prof.", "dr.", "mr.", "ms.", "mrs."]

/-- Strip one leading honorific followed by at least one whitespace character
(the `\s+` run is consumed greedily); if no whitespace follows, that
alternative fails and the others are tried. -/
def stripHonorific : List String → List Char → List Char
  | [], l => l
  | h :: hs, l =>
    if leadMatches (lowerList l) h.data then
      match l.drop h.length with
      | c :: rest => if c.isWhitespace then (c :: rest).dropWhile Char.isWhitespace
                     else stripHonorific hs l
      | [] => stripHonorific hs l
    else stripHonorific hs l

/-- `cleanName` (line 43): strip the honorific, then `.trim()`. -/
def cleanName (n : String) : String :=
  ⟨trimChars (stripHonorific HONORIFICS n.data)⟩

/-- Stable descending insertion by `matchScore`: a later element is placed
after every earlier element of equal score, which is exactly the observable
behaviour of the stable `results.sort((a, b) => b.matchScore - a.matchScore)`. -/
def insDesc (x : Prof × ℚ) : List (Prof × ℚ) → List (Prof × ℚ)
  | [] => [x]
  | y :: ys => if x.2 > y.2 then x :: y :: ys else y :: insDesc x ys

/-- Stable sort of the scored pool, descending by score. -/
def sortByScoreDesc (l : List (Prof × ℚ)) : List (Prof × ℚ) :=
  l.foldl (fun acc x => insDesc x acc) []

/-- The scoring/filter block of the last-name fallback (lines 106-127):
score everything, sort descending, then with a department context keep
`matchScore >= 15`, relaxing to `matchScore >= 30`; without one keep
`matchScore >= 30`. -/
def tierFilter (candidates : List Prof) (searchTerm : String)
    (normalizedDept : Option String) : List Prof :=
  if candidates.isEmpty then []
  else
    let scored := candidates.map (fun q => (q, scoreProfessor q searchTerm normalizedDept))
    let sorted := sortByScoreDesc scored
    if truthy normalizedDept then
      let deptMatches := sorted.filter (fun x => decide ((15 : ℚ) ≤ x.2))
      if deptMatches.isEmpty = false then deptMatches.map Prod.fst
      else (sorted.filter (fun x => decide ((30 : ℚ) ≤ x.2))).map Prod.fst
    else (sorted.filter (fun x => decide ((30 : ℚ) ≤ x.2))).map Prod.fst

/-- Lines 131-160: if the scoped tiers produced nothing, one last unscoped
search on the full cleaned name; the final `sendResponse` with `slice(0, 5)`
on success or `'Professor not found.'` on failure. -/
def finishScoped (t : Transport) (cache : CachedContext) (searchTerm : String)
    (resolved : Option String) (results : List Prof) (trace : List Call) : RunResult :=
  if results.isEmpty then
    let g := searchTeacherGlobal t searchTerm
    let trace' := trace ++ [Call.global searchTerm]
    if g.isEmpty = false then ⟨⟨true, g.take 5, some "Global Search", none⟩, cache, trace'⟩
    else ⟨⟨false, [], resolved, some "Professor not found."⟩, cache, trace'⟩
  else ⟨⟨true, results.take 5, resolved, none⟩, cache, trace⟩

/-- The Tier-2/3 fallback (lines 96-129): search the last-name token scoped to
the school (`parts[parts.length - 1]`), then score/sort/filter the pool.  A
raised `searchProfessor` failure falls to the outer `catch`, which responds
`{success: false, error: message}` with no further calls. -/
def lastNameFallback (t : Transport) (cache : CachedContext) (searchTerm : String)
    (normalizedDept : Option String) (schoolID : String) (resolved : Option String)
    (trace1 : List Call) : RunResult :=
  match searchProfessor t ⟨(splitOnSpace searchTerm.data).getLastD []⟩ schoolID with
  | .error e =>
    ⟨⟨false, [], none, some e⟩, cache,
      trace1 ++ [Call.prof ⟨(splitOnSpace searchTerm.data).getLastD []⟩ schoolID]⟩
  | .ok candidates =>
    finishScoped t cache searchTerm resolved
      (tierFilter candidates searchTerm normalizedDept)
      (trace1 ++ [Call.prof ⟨(splitOnSpace searchTerm.data).getLastD []⟩ schoolID])

/-- Step B (lines 90-129): Tier 1 searches the full cleaned name scoped to the
school; only if it is empty and the name has a space does the last-name
fallback run. -/
def scopedSearch (t : Transport) (cache : CachedContext) (searchTerm : String)
    (normalizedDept : Option String) (schoolID : String) (resolved : Option String)
    (trace0 : List Call) : RunResult :=
  match searchProfessor t searchTerm schoolID with
  | .error e => ⟨⟨false, [], none, some e⟩, cache, trace0 ++ [Call.prof searchTerm schoolID]⟩
  | .ok results =>
    if results.isEmpty ∧ searchTerm.data.contains ' ' then
      lastNameFallback t cache searchTerm normalizedDept schoolID resolved
        (trace0 ++ [Call.prof searchTerm schoolID])
    else finishScoped t cache searchTerm resolved results (trace0 ++ [Call.prof searchTerm schoolID])

/-- Lines 67-86: no school resolved — one unscoped search on the cleaned name;
non-empty short-circuits the whole run with the `'Global Search'` label and
`slice(0, 5)`, else the terminal failure with `schoolName: null`. -/
def noSchoolResult (t : Transport) (cache : CachedContext) (searchTerm : String)
    (trace0 : List Call) : RunResult :=
  let g := searchTeacherGlobal t searchTerm
  let trace' := trace0 ++ [Call.global searchTerm]
  if g.isEmpty = false then ⟨⟨true, g.take 5, some "Global Search", none⟩, cache, trace'⟩
  else ⟨⟨false, [], none, some "School not detected and no global match found."⟩, cache, trace'⟩

/-- `handleSearchProfessor` (lines 38-166).  Step A: the sticky cache is used
only when its `schoolID` is truthy and its `domain` strictly equals the
incoming `schoolDomain`; otherwise a truthy `schoolName` hint is resolved via
`searchSchool` (overwriting the cache on success); a still-falsy `schoolID`
goes to the unscoped fallback. -/
def handleSearchProfessor (t : Transport) (cache : CachedContext) (p : Payload) : RunResult :=
  let searchTerm := cleanName p.name
  let normalizedDept := normalizeDepartment p.department
  if truthy cache.schoolID = true ∧ cache.domain = some p.schoolDomain then
    scopedSearch t cache searchTerm normalizedDept (cache.schoolID.getD "") cache.schoolName []
  else if truthy p.schoolName = true then
    let hint := p.schoolName.getD ""
    match searchSchool t hint with
    | some sr =>
      let cache' : CachedContext := ⟨some sr.id, some sr.name, some p.schoolDomain⟩
      if sr.id ≠ "" then
        scopedSearch t cache' searchTerm normalizedDept sr.id (some sr.name) [Call.school hint]
      else noSchoolResult t cache' searchTerm [Call.school hint]
    | none => noSchoolResult t cache searchTerm [Call.school hint]
  else noSchoolResult t cache searchTerm []

/-! ## Helper lemmas -/

theorem mkRat_nine_tenths : (mkRat 9 10 : ℚ) = 9 / 10 := by
  norm_num [mkRat, Rat.normalize]

theorem mkRat_four_fifths : (mkRat 4 5 : ℚ) = 4 / 5 := by
  norm_num [mkRat, Rat.normalize]

theorem strIncludes_nil (l : List Char) : strIncludes l [] = true := by
  cases l <;> simp [strIncludes, leadMatches]

theorem deptBonus_none (d : String) : deptBonus d none = 0 := rfl

theorem deptBonus_degenerate (d : String) (dept : String) (hne : dept ≠ "")
    (h0 : keepLowerAlpha (lowerChars dept) = []) : deptBonus d (some dept) = 15 := by
  simp [deptBonus, hne, h0, strIncludes_nil]

/-! ### Jaro-Winkler on two equal strings of length ≥ 2 -/

theorem jwScan_hits (c : Char) (b : List Char) (i : Nat) (hbi : b.get? i = some c) :
    ∀ fuel j, j ≤ i → i < j + fuel → jwScan c b (List.range i) fuel j = some i := by
  intro fuel
  induction fuel with
  | zero => intro j hj hlt; omega
  | succ n ih =>
    intro j hj hlt
    rcases Nat.eq_or_lt_of_le hj with rfl | hlt'
    · have : (List.range j).contains j = false := by
        simp [List.contains, List.elem_eq_mem]
      rw [jwScan, if_pos ⟨this, hbi⟩]
    · have hmem : (List.range i).contains j = true := by
        simp [List.contains, List.elem_eq_mem, List.mem_range]; omega
      rw [jwScan, if_neg (fun hcon => by rw [hmem] at hcon; exact Bool.noConfusion hcon.1)]
      exact ih (j + 1) (by omega) (by omega)

theorem jwLoop_self_aux (a : List Char) (mw : Int) (hmw : 0 ≤ mw) :
    ∀ (rem : List Char) (i : Nat) (acc : List (Nat × Nat)),
      rem = a.drop i → acc.map Prod.snd = List.range i →
      jwLoop a mw rem i acc =
        acc ++ (List.range' i (a.length - i)).map (fun k => (k, k)) := by
  intro rem
  induction rem with
  | nil =>
    intro i acc hrem _hacc
    have hi : a.length ≤ i := by
      by_contra hlt
      push_neg at hlt
      have := List.drop_eq_nil_iff.mp hrem.symm
      omega
    simp [jwLoop, Nat.sub_eq_zero_of_le hi]
  | cons c rest ih =>
    intro i acc hrem hacc
    have hi : i < a.length := by
      by_contra hge
      push_neg at hge
      rw [List.drop_eq_nil_iff.mpr hge] at hrem
      exact absurd hrem (by simp)
    have hci : a.get? i = some c := by
      have := congrArg List.head? hrem
      rw [List.head?_drop] at this
      simpa using this.symm
    have hrest : rest = a.drop (i + 1) := by
      have := congrArg List.tail hrem
      simpa [List.tail_drop] using this
    have hstart : ((i : Int) - mw).toNat ≤ i := by
      omega
    have hstop : i < min ((i : Int) + mw + 1).toNat a.length := by
      omega
    have hscan := jwScan_hits c a i hci
      (min ((i : Int) + mw + 1).toNat a.length - ((i : Int) - mw).toNat)
      (((i : Int) - mw).toNat) hstart (by omega)
    rw [jwLoop, hacc, hscan]
    have hacc' : (acc ++ [(i, i)]).map Prod.snd = List.range (i + 1) := by
      simp [hacc, List.range_succ]
    show jwLoop a mw rest (i + 1) (acc ++ [(i, i)]) = _
    rw [ih (i + 1) (acc ++ [(i, i)]) hrest hacc']
    have hlen : a.length - i = (a.length - (i + 1)) + 1 := by omega
    rw [hlen, List.range'_succ]
    simp

theorem mkRat_one_tenth : (mkRat 1 10 : ℚ) = 1 / 10 := by
  norm_num [mkRat, Rat.normalize]

theorem jwPairs_self (a : List Char) (mw : Int) (hmw : 0 ≤ mw) :
    jwPairs a a mw = (List.range a.length).map (fun k => (k, k)) := by
  unfold jwPairs
  rw [jwLoop_self_aux a mw hmw a 0 [] (by simp) (by simp)]
  simp [List.range_eq_range']

theorem countP_ne_zip_self (l : List Char) :
    ((l.zip l).countP fun pr => pr.1 ≠ pr.2) = 0 := by
  induction l with
  | nil => rfl
  | cons c rest ih => simpa [List.countP_cons] using ih

theorem map_snd_diag (r : List Nat) : ((r.map fun k => (k, k)).map Prod.snd) = r := by
  simp [List.map_map, Function.comp_def]

theorem filter_contains_self (r : List Nat) : (r.filter fun j => r.contains j) = r := by
  apply List.filter_eq_self.mpr
  intro j hj
  simpa [List.contains, List.elem_eq_mem] using hj

theorem jwT_self (a : List Char) :
    jwT a a ((List.range a.length).map fun k => (k, k)) = 0 := by
  simp only [jwT, List.map_map, Function.comp_def, List.map_id', filter_contains_self]
  rw [countP_ne_zip_self]
  norm_num

theorem jaroWinkler_self (s : String) (h : 2 ≤ s.length) : jaroWinkler s s = 1 := by
  simp only [jaroWinkler]
  rw [if_neg (by omega)]
  rw [jwPairs_self (lowerChars s) _ (by simp [lowerChars]; omega)]
  rw [if_neg (by simp [lowerChars]; omega)]
  rw [jwT_self]
  simp only [List.length_map, List.length_range]
  have hn : ((lowerChars s).length : ℚ) ≠ 0 := by
    simp [lowerChars]
    omega
  rw [sub_zero, div_self hn]
  norm_num

/-! ### Engine helper lemmas and concrete fixtures -/

/-- The scoped professor queries of a trace, in order. -/
def profCalls (tr : List Call) : List (String × String) :=
  tr.filterMap (fun c => match c with | .prof q sid => some (q, sid) | _ => none)

theorem profCalls_append (tr tr' : List Call) :
    profCalls (tr ++ tr') = profCalls tr ++ profCalls tr' := by
  simp [profCalls]

theorem profCalls_finishScoped (t : Transport) (cache : CachedContext) (s : String)
    (r : Option String) (results : List Prof) (tr : List Call) :
    profCalls (finishScoped t cache s r results tr).trace = profCalls tr := by
  simp only [finishScoped]
  split
  · split <;> simp [profCalls_append, profCalls]
  · rfl

theorem noSchoolResult_cache (t : Transport) (c c' : CachedContext) (s : String)
    (tr : List Call) :
    (noSchoolResult t c s tr).resp = (noSchoolResult t c' s tr).resp ∧
    (noSchoolResult t c s tr).trace = (noSchoolResult t c' s tr).trace := by
  simp only [noSchoolResult]
  constructor <;> (split <;> rfl)

theorem finishScoped_cache (t : Transport) (c c' : CachedContext) (s : String)
    (r : Option String) (results : List Prof) (tr : List Call) :
    (finishScoped t c s r results tr).resp = (finishScoped t c' s r results tr).resp ∧
    (finishScoped t c s r results tr).trace = (finishScoped t c' s r results tr).trace := by
  simp only [finishScoped]
  constructor <;> (split; · split <;> rfl
                   · rfl)

theorem lastNameFallback_cache (t : Transport) (c c' : CachedContext) (s : String)
    (nd : Option String) (sid : String) (r : Option String) (tr : List Call) :
    (lastNameFallback t c s nd sid r tr).resp = (lastNameFallback t c' s nd sid r tr).resp ∧
    (lastNameFallback t c s nd sid r tr).trace = (lastNameFallback t c' s nd sid r tr).trace := by
  simp only [lastNameFallback]
  refine ⟨?_, ?_⟩ <;> split <;>
    first
      | rfl
      | exact (finishScoped_cache ..).1
      | exact (finishScoped_cache ..).2

theorem scopedSearch_cache (t : Transport) (c c' : CachedContext) (s : String)
    (nd : Option String) (sid : String) (r : Option String) (tr : List Call) :
    (scopedSearch t c s nd sid r tr).resp = (scopedSearch t c' s nd sid r tr).resp ∧
    (scopedSearch t c s nd sid r tr).trace = (scopedSearch t c' s nd sid r tr).trace := by
  simp only [scopedSearch]
  refine ⟨?_, ?_⟩ <;> split <;>
    first
      | rfl
      | (split <;>
          first
            | exact (lastNameFallback_cache ..).1
            | exact (lastNameFallback_cache ..).2
            | exact (finishScoped_cache ..).1
            | exact (finishScoped_cache ..).2)

theorem sortByScoreDesc_singleton (x : Prof × ℚ) : sortByScoreDesc [x] = [x] := rfl

theorem noSchoolResult_global (t : Transport) (c : CachedContext) (s : String)
    (tr : List Call) (hg : (searchTeacherGlobal t s).isEmpty = false) :
    (noSchoolResult t c s tr).resp =
      ⟨true, (searchTeacherGlobal t s).take 5, some "Global Search", none⟩ := by
  simp only [noSchoolResult]
  rw [if_pos hg]

theorem noSchoolResult_profCalls (t : Transport) (c : CachedContext) (s : String)
    (tr : List Call) : profCalls (noSchoolResult t c s tr).trace = profCalls tr := by
  simp only [noSchoolResult]
  split <;> simp [profCalls_append, profCalls]

theorem lastNameFallback_profCalls (t : Transport) (c : CachedContext) (s : String)
    (nd : Option String) (sid : String) (r : Option String) (tr : List Call) :
    profCalls (lastNameFallback t c s nd sid r tr).trace =
      profCalls tr ++ [((⟨(splitOnSpace s.data).getLastD []⟩ : String), sid)] := by
  simp only [lastNameFallback]
  split
  · simp [profCalls_append, profCalls]
  · rw [profCalls_finishScoped]
    simp [profCalls_append, profCalls]

/-- A transport whose three endpoints all answer with empty edge lists. -/
def okEmptyTransport : Transport :=
  ⟨fun _ _ => .ok [], fun _ => .ok [], fun _ => .ok []⟩

/-- A candidate whose last name has no characters in common with "Smith". -/
def qZzz : Prof := ⟨"Xavier", "Zzz", "History"⟩

/-- Scoped search finds `qZzz` only for the bare last-name query "Smith". -/
def zzTransport : Transport :=
  ⟨fun q _ => if q = "Smith" then .ok [qZzz] else .ok [],
   fun _ => .ok [], fun _ => .ok []⟩

/-- Every scoped or school call fails in transport; the global endpoint works
and knows one professor. -/
def errTransport : Transport :=
  ⟨fun _ _ => .error "RMP API Error: 500",
   fun _ => .error "RMP API Error: 500",
   fun _ => .ok [⟨"Grace", "Hopper", "Computer Science"⟩]⟩

/-- Every endpoint fails in transport. -/
def allErrTransport : Transport :=
  ⟨fun _ _ => .error "RMP API Error: 500",
   fun _ => .error "RMP API Error: 500",
   fun _ => .error "RMP API Error: 500"⟩

/-- Six global matches, to exercise `slice(0, 5)`. -/
def sixGlobalProfs : List Prof :=
  [⟨"A", "One", "D"⟩, ⟨"B", "Two", "D"⟩, ⟨"C", "Three", "D"⟩,
   ⟨"D", "Four", "D"⟩, ⟨"E", "Five", "D"⟩, ⟨"F", "Six", "D"⟩]

/-- Scoped/school endpoints empty; the global endpoint returns six matches. -/
def globalTransport : Transport :=
  ⟨fun _ _ => .ok [], fun _ => .ok [], fun _ => .ok sixGlobalProfs⟩

/-- A bound sticky cache for the domain "x.example.com". -/
def stickyCache : CachedContext := ⟨some "S1", some "Test University", some "x.example.com"⟩

/-- A plain request from the cached domain, honorific included, no hints. -/
def smithPayload : Payload := ⟨"Dr. John Smith", "x.example.com", none, none, none⟩

/-- The same request with a department context ("CS" → "Computer Science"). -/
def smithDeptPayload : Payload := ⟨"John Smith", "x.example.com", none, some "CS", none⟩

/-- A request from a domain nothing is known about. -/
def janePayload : Payload := ⟨"Jane Doe", "unknown.example.com", none, none, none⟩

end RMP

/-- C3: for every professor record, query name and optional department
context, `scoreProfessor` returns exactly 0 whenever the Jaro-Winkler
similarity between the record's last name and the query's last token
(case-folded, as the source computes it) is ≤ 0.8, regardless of first-name
similarity, nickname equivalence, or department agreement. -/
theorem C3_last_name_gate (prof : RMP.Prof) (searchName : String)
    (searchDept : Option String)
    (h : RMP.jaroWinkler (RMP.strLower prof.lastName)
        ⟨(RMP.splitOnSpace (RMP.lowerChars searchName)).getLastD []⟩ ≤ 4 / 5) :
    RMP.scoreProfessor prof searchName searchDept = 0 := by
  unfold RMP.scoreProfessor
  rw [if_neg, if_neg]
  · rw [RMP.mkRat_four_fifths]; exact not_lt.mpr h
  · rw [RMP.mkRat_nine_tenths]; exact not_lt.mpr (by linarith)

/-- Witness for C3: the record `{lastName := "Zzz"}` against the query
`"John Smith"` has last-name similarity 0 ≤ 0.8 and scores 0 even though the
department context matches exactly. -/
theorem C3_last_name_gate_witness :
    RMP.jaroWinkler (RMP.strLower "Zzz")
        ⟨(RMP.splitOnSpace (RMP.lowerChars "John Smith")).getLastD []⟩ ≤ 4 / 5 ∧
    RMP.scoreProfessor ⟨"John", "Zzz", "History"⟩ "John Smith" (some "History") = 0 := by
  have hj : RMP.jaroWinkler (RMP.strLower "Zzz")
      ⟨(RMP.splitOnSpace (RMP.lowerChars "John Smith")).getLastD []⟩ = 0 := by decide
  refine ⟨by rw [hj]; norm_num, ?_⟩
  exact C3_last_name_gate ⟨"John", "Zzz", "History"⟩ "John Smith" (some "History")
    (by rw [hj]; norm_num)

/-- C9 (implicit): a non-empty department context with no ASCII letters (for
example a numeric course code) strips to the empty string, which every
record's department trivially contains, so every candidate that passes the
last-name gate gets the +15 department bonus relative to scoring with no
context at all. -/
theorem C9_letterless_department_bonus (prof : RMP.Prof) (searchName dept : String)
    (hne : dept ≠ "") (hnoalpha : RMP.keepLowerAlpha (RMP.lowerChars dept) = [])
    (hgate : RMP.jaroWinkler (RMP.strLower prof.lastName)
        ⟨(RMP.splitOnSpace (RMP.lowerChars searchName)).getLastD []⟩ > 4 / 5) :
    RMP.scoreProfessor prof searchName (some dept) =
      RMP.scoreProfessor prof searchName none + 15 := by
  unfold RMP.scoreProfessor
  rw [RMP.deptBonus_degenerate prof.department dept hne hnoalpha, RMP.deptBonus_none]
  rw [RMP.mkRat_nine_tenths, RMP.mkRat_four_fifths]
  simp only [gt_iff_lt]
  split
  · ring
  · ring

/-- Witness for C9: the record `{lastName := "Reges"}` against the query
`"Stuart Reges"` passes the gate (self-similarity 1), and the letterless
context `"101"` earns the +15 bonus. -/
theorem C9_letterless_department_bonus_witness :
    ("101" : String) ≠ "" ∧
    RMP.keepLowerAlpha (RMP.lowerChars "101") = [] ∧
    RMP.scoreProfessor ⟨"Stuart", "Reges", "Computer Science"⟩ "Stuart Reges" (some "101") =
      RMP.scoreProfessor ⟨"Stuart", "Reges", "Computer Science"⟩ "Stuart Reges" none + 15 := by
  refine ⟨by decide, by decide, ?_⟩
  refine C9_letterless_department_bonus ⟨"Stuart", "Reges", "Computer Science"⟩
    "Stuart Reges" "101" (by decide) (by decide) ?_
  have hj : RMP.jaroWinkler (RMP.strLower "Reges")
      ⟨(RMP.splitOnSpace (RMP.lowerChars "Stuart Reges")).getLastD []⟩ = 1 := by
    have h1 : RMP.strLower "Reges" = "reges" := by decide
    have h2 : (⟨(RMP.splitOnSpace (RMP.lowerChars "Stuart Reges")).getLastD []⟩ : String) = "reges" := by
      decide
    rw [h1, h2]
    exact RMP.jaroWinkler_self "reges" (by decide)
  rw [hj]; norm_num

/-- C10 (implicit): `normalizeDepartment` maps `null`/`undefined`/`""` to
`null` (not to the input), returns any other input unchanged when its
lowercased letters-only form is not a key of the lookup table, and (being a
total function) never throws. -/
theorem C10_normalizeDepartment_passthrough (s : String) (hne : s ≠ "")
    (hkey : RMP.DEPARTMENT_MAP.lookup (⟨RMP.keepLowerAlpha (RMP.lowerChars s)⟩ : String) = none) :
    RMP.normalizeDepartment none = none ∧
    RMP.normalizeDepartment (some "") = none ∧
    RMP.normalizeDepartment (some s) = some s := by
  refine ⟨rfl, by decide, ?_⟩
  simp [RMP.normalizeDepartment, hne, hkey]

/-- Witness for C10: `"Quantum Studies"` is not empty, is not a table key, and
passes through unchanged. -/
theorem C10_normalizeDepartment_passthrough_witness :
    ("Quantum Studies" : String) ≠ "" ∧
    RMP.normalizeDepartment (some "Quantum Studies") = some "Quantum Studies" := by
  refine ⟨by decide, ?_⟩
  exact (C10_normalizeDepartment_passthrough "Quantum Studies" (by decide) (by decide)).2.2

/-- C1 (counterexample): with the sticky cache bound to the incoming domain
and the query "Dr. John Smith", the first scoped directory query is the full
cleaned name "John Smith", not the last-name token "Smith" — the last-name
query happens second, only after the full-name query returned empty. -/
theorem C1_counterexample :
    (RMP.handleSearchProfessor RMP.okEmptyTransport RMP.stickyCache RMP.smithPayload).trace =
      [RMP.Call.prof "John Smith" "S1", RMP.Call.prof "Smith" "S1",
       RMP.Call.global "John Smith"] ∧
    RMP.cleanName RMP.smithPayload.name = "John Smith" ∧
    (RMP.cleanName RMP.smithPayload.name).data.contains ' ' = true ∧
    ("John Smith" : String) ≠ "Smith" := by
  decide

/-- C1 (amended): in the scoped search (sticky-cache hit), for every query the
engine first queries the directory for the **full cleaned name** scoped to the
school; only if that query returns an empty list — and the cleaned name
contains a space — does it retry with the last-name token at the same scope. -/
theorem C1_amended_full_name_first (t : RMP.Transport) (cache : RMP.CachedContext)
    (p : RMP.Payload) (hc1 : RMP.truthy cache.schoolID = true)
    (hc2 : cache.domain = some p.schoolDomain) (l : List RMP.Prof)
    (hok : t.profEdges (RMP.cleanName p.name) (cache.schoolID.getD "") = .ok l) :
    RMP.profCalls (RMP.handleSearchProfessor t cache p).trace =
      if l.isEmpty = true ∧ (RMP.cleanName p.name).data.contains ' ' = true then
        [(RMP.cleanName p.name, cache.schoolID.getD ""),
         ((⟨(RMP.splitOnSpace (RMP.cleanName p.name).data).getLastD []⟩ : String),
          cache.schoolID.getD "")]
      else [(RMP.cleanName p.name, cache.schoolID.getD "")] := by
  have hsp : RMP.searchProfessor t (RMP.cleanName p.name) (cache.schoolID.getD "") = .ok l := by
    unfold RMP.searchProfessor
    rw [hok]
  simp only [RMP.handleSearchProfessor]
  rw [if_pos ⟨hc1, hc2⟩]
  simp only [RMP.scopedSearch, hsp]
  by_cases hcond : l.isEmpty = true ∧ (RMP.cleanName p.name).data.contains ' ' = true
  · rw [if_pos hcond, if_pos hcond]
    rw [RMP.lastNameFallback_profCalls]
    simp [RMP.profCalls_append, RMP.profCalls]
  · rw [if_neg hcond, if_neg hcond]
    rw [RMP.profCalls_finishScoped]
    simp [RMP.profCalls_append, RMP.profCalls]

/-- Witness for the amended C1: under the all-empty transport, the sticky
cache and the "Dr. John Smith" payload satisfy every hypothesis, and the
fallback branch of the conclusion applies. -/
theorem C1_amended_full_name_first_witness :
    RMP.truthy RMP.stickyCache.schoolID = true ∧
    RMP.stickyCache.domain = some RMP.smithPayload.schoolDomain ∧
    RMP.profCalls (RMP.handleSearchProfessor RMP.okEmptyTransport RMP.stickyCache
        RMP.smithPayload).trace =
      if ([] : List RMP.Prof).isEmpty = true ∧
          (RMP.cleanName RMP.smithPayload.name).data.contains ' ' = true then
        [(RMP.cleanName RMP.smithPayload.name, RMP.stickyCache.schoolID.getD ""),
         ((⟨(RMP.splitOnSpace (RMP.cleanName RMP.smithPayload.name).data).getLastD []⟩ : String),
          RMP.stickyCache.schoolID.getD "")]
      else [(RMP.cleanName RMP.smithPayload.name, RMP.stickyCache.schoolID.getD "")] :=
  ⟨by decide, by decide,
    C1_amended_full_name_first RMP.okEmptyTransport RMP.stickyCache RMP.smithPayload
      (by decide) (by decide) [] (by decide)⟩

/-- C2 (counterexample): a transport failure at the scoped professor search is
re-raised by `RmpService.searchProfessor` (not converted to an empty result),
and the engine's outer catch then answers `{success: false}` without running
the last-name or global fallback tiers — even though the global tier would
have found a record. -/
theorem C2_counterexample :
    RMP.searchProfessor RMP.errTransport "John Smith" "S1" =
      Except.error "RMP API Error: 500" ∧
    (RMP.handleSearchProfessor RMP.errTransport RMP.stickyCache RMP.smithPayload).resp =
      ⟨false, [], none, some "RMP API Error: 500"⟩ ∧
    (RMP.handleSearchProfessor RMP.errTransport RMP.stickyCache RMP.smithPayload).trace =
      [RMP.Call.prof "John Smith" "S1"] ∧
    RMP.searchTeacherGlobal RMP.errTransport "John Smith" =
      [⟨"Grace", "Hopper", "Computer Science"⟩] := by
  decide

/-- C2 (amended): transport failures at the school lookup and at the global
professor search are caught at the call site and converted into an empty
result for that tier (`null` / `[]`), so later waterfall tiers still run; but
a transport failure at the **scoped** professor search is re-raised, caught
only by the engine's outer handler, and aborts the remaining tiers with a
structured `{success: false, error}` response — after the one failed call,
no further collaborator call is made. -/
theorem C2_amended_error_conversion (t : RMP.Transport) (q1 q2 e1 e2 e3 : String)
    (cache : RMP.CachedContext) (p : RMP.Payload)
    (h1 : t.globalEdges q1 = .error e1) (h2 : t.schoolEdges q2 = .error e2)
    (hc1 : RMP.truthy cache.schoolID = true) (hc2 : cache.domain = some p.schoolDomain)
    (h3 : t.profEdges (RMP.cleanName p.name) (cache.schoolID.getD "") = .error e3) :
    RMP.searchTeacherGlobal t q1 = [] ∧
    RMP.searchSchool t q2 = none ∧
    (RMP.handleSearchProfessor t cache p).resp = ⟨false, [], none, some e3⟩ ∧
    (RMP.handleSearchProfessor t cache p).trace =
      [RMP.Call.prof (RMP.cleanName p.name) (cache.schoolID.getD "")] := by
  have hsp : RMP.searchProfessor t (RMP.cleanName p.name) (cache.schoolID.getD "") =
      .error e3 := by
    unfold RMP.searchProfessor
    rw [h3]
  have hglobal : RMP.searchTeacherGlobal t q1 = [] := by
    unfold RMP.searchTeacherGlobal
    rw [h1]
  have hschool : RMP.searchSchool t q2 = none := by
    unfold RMP.searchSchool
    rw [h2]
  refine ⟨hglobal, hschool, ?_, ?_⟩
  all_goals
    simp only [RMP.handleSearchProfessor]
    rw [if_pos ⟨hc1, hc2⟩]
    simp only [RMP.scopedSearch, hsp]
    try simp

/-- Witness for the amended C2: the failing transport with the bound sticky
cache satisfies every hypothesis. -/
theorem C2_amended_error_conversion_witness :
    RMP.searchTeacherGlobal RMP.allErrTransport "any" = [] ∧
    RMP.searchSchool RMP.allErrTransport "Yale" = none ∧
    (RMP.handleSearchProfessor RMP.allErrTransport RMP.stickyCache RMP.smithPayload).resp =
      ⟨false, [], none, some "RMP API Error: 500"⟩ ∧
    (RMP.handleSearchProfessor RMP.allErrTransport RMP.stickyCache RMP.smithPayload).trace =
      [RMP.Call.prof (RMP.cleanName RMP.smithPayload.name)
        (RMP.stickyCache.schoolID.getD "")] :=
  C2_amended_error_conversion RMP.allErrTransport "any" "Yale"
    "RMP API Error: 500" "RMP API Error: 500" "RMP API Error: 500"
    RMP.stickyCache RMP.smithPayload
    (by decide) (by decide) (by decide) (by decide) (by decide)

/-- C4: the sticky cache is consulted only when the incoming request's domain
equals the cached domain: for every request whose domain differs from the
cached domain, the run's response and call trace are exactly those of a run
with an empty cache — the cached school id is never reused to answer that
request.  (The manual-override flow re-enters with the cached domain itself,
so it is covered by the equality case.) -/
theorem C4_sticky_cache_domain_guard (t : RMP.Transport) (cache : RMP.CachedContext)
    (p : RMP.Payload) (h : cache.domain ≠ some p.schoolDomain) :
    (RMP.handleSearchProfessor t cache p).resp =
      (RMP.handleSearchProfessor t RMP.emptyCache p).resp ∧
    (RMP.handleSearchProfessor t cache p).trace =
      (RMP.handleSearchProfessor t RMP.emptyCache p).trace := by
  have h1 : ¬(RMP.truthy cache.schoolID = true ∧ cache.domain = some p.schoolDomain) :=
    fun hc => h hc.2
  have h2 : ¬(RMP.truthy RMP.emptyCache.schoolID = true ∧
      RMP.emptyCache.domain = some p.schoolDomain) := by
    simp [RMP.emptyCache, RMP.truthy]
  simp only [RMP.handleSearchProfessor]
  rw [if_neg h1, if_neg h2]
  by_cases hs : RMP.truthy p.schoolName = true
  · rw [if_pos hs, if_pos hs]
    cases hsr : RMP.searchSchool t (p.schoolName.getD "") with
    | some sr => exact ⟨rfl, rfl⟩
    | none => exact RMP.noSchoolResult_cache ..
  · rw [if_neg hs, if_neg hs]
    exact RMP.noSchoolResult_cache ..

/-- Witness for C4: a cache bound to "x.example.com" is ignored for a request
from "unknown.example.com". -/
theorem C4_sticky_cache_domain_guard_witness :
    (RMP.handleSearchProfessor RMP.okEmptyTransport RMP.stickyCache RMP.janePayload).resp =
      (RMP.handleSearchProfessor RMP.okEmptyTransport RMP.emptyCache RMP.janePayload).resp ∧
    (RMP.handleSearchProfessor RMP.okEmptyTransport RMP.stickyCache RMP.janePayload).trace =
      (RMP.handleSearchProfessor RMP.okEmptyTransport RMP.emptyCache RMP.janePayload).trace :=
  C4_sticky_cache_domain_guard RMP.okEmptyTransport RMP.stickyCache RMP.janePayload
    (by decide)

/-- C5: when Step A resolves no school id (no sticky-cache hit and no
resolvable school hint), the engine runs one unscoped directory-wide search on
the cleaned name; if it is non-empty the whole run short-circuits with the
first 5 of those matches under the "Global Search" label, and no scoped
professor query (hence no department filtering or local scoring) ever runs. -/
theorem C5_global_shortcircuit (t : RMP.Transport) (cache : RMP.CachedContext)
    (p : RMP.Payload)
    (hnc : ¬(RMP.truthy cache.schoolID = true ∧ cache.domain = some p.schoolDomain))
    (hhint : ∀ s, p.schoolName = some s → RMP.searchSchool t s = none)
    (hg : (RMP.searchTeacherGlobal t (RMP.cleanName p.name)).isEmpty = false) :
    (RMP.handleSearchProfessor t cache p).resp =
      ⟨true, (RMP.searchTeacherGlobal t (RMP.cleanName p.name)).take 5,
       some "Global Search", none⟩ ∧
    RMP.profCalls (RMP.handleSearchProfessor t cache p).trace = [] := by
  simp only [RMP.handleSearchProfessor]
  rw [if_neg hnc]
  by_cases hs : RMP.truthy p.schoolName = true
  · rw [if_pos hs]
    obtain ⟨sv, hsv⟩ : ∃ sv, p.schoolName = some sv := by
      cases hps : p.schoolName with
      | none => rw [hps] at hs; exact absurd hs (by simp [RMP.truthy])
      | some sv => exact ⟨sv, rfl⟩
    have hnone : RMP.searchSchool t (p.schoolName.getD "") = none := by
      rw [hsv]
      exact hhint sv hsv
    rw [hnone]
    exact ⟨RMP.noSchoolResult_global t cache (RMP.cleanName p.name) _ hg,
      by rw [RMP.noSchoolResult_profCalls]; simp [RMP.profCalls]⟩
  · rw [if_neg hs]
    exact ⟨RMP.noSchoolResult_global t cache (RMP.cleanName p.name) _ hg,
      by rw [RMP.noSchoolResult_profCalls]; simp [RMP.profCalls]⟩

/-- Witness for C5: six global matches for "Jane Doe" from an unknown domain:
the response carries exactly the first five, labelled "Global Search", and the
trace contains no scoped professor call. -/
theorem C5_global_shortcircuit_witness :
    (RMP.handleSearchProfessor RMP.globalTransport RMP.emptyCache RMP.janePayload).resp =
      ⟨true, (RMP.searchTeacherGlobal RMP.globalTransport
        (RMP.cleanName RMP.janePayload.name)).take 5, some "Global Search", none⟩ ∧
    RMP.profCalls (RMP.handleSearchProfessor RMP.globalTransport RMP.emptyCache
      RMP.janePayload).trace = [] :=
  C5_global_shortcircuit RMP.globalTransport RMP.emptyCache RMP.janePayload
    (by decide) (fun s hs => nomatch hs) (by decide)

/-- C6 (counterexample): a scoped pool of exactly one record whose department
does not match the context is **not** unconditionally returned: the candidate
`{lastName: "Zzz", department: "History"}` against query "John Smith" with
context "Computer Science" scores 0 (last-name gate), is dropped by both score
filters, and the run ends in "Professor not found." — there is no
single-candidate override in the code. -/
theorem C6_counterexample :
    RMP.truthy (some "Computer Science") = true ∧
    RMP.deptBonus RMP.qZzz.department (some "Computer Science") = 0 ∧
    RMP.tierFilter [RMP.qZzz] "John Smith" (some "Computer Science") = [] ∧
    RMP.normalizeDepartment RMP.smithDeptPayload.department = some "Computer Science" ∧
    (RMP.handleSearchProfessor RMP.zzTransport RMP.stickyCache RMP.smithDeptPayload).resp =
      ⟨false, [], some "Test University", some "Professor not found."⟩ := by
  decide

/-- C6 (amended): in the scoped search with a department context, a pool of
exactly one record is returned iff its match score is at least 15 —
department mismatch alone never filters it out (any candidate passing the
last-name gate scores ≥ 30 ≥ 15), but a sole candidate failing the last-name
gate (score 0 < 15) is dropped, not returned. -/
theorem C6_amended_single_pool (q : RMP.Prof) (st : String) (nd : Option String)
    (hd : RMP.truthy nd = true) :
    RMP.tierFilter [q] st nd =
      if (15 : ℚ) ≤ RMP.scoreProfessor q st nd then [q] else [] := by
  simp only [RMP.tierFilter]
  rw [if_neg (by simp)]
  simp only [List.map]
  rw [RMP.sortByScoreDesc_singleton, if_pos hd]
  by_cases h15 : (15 : ℚ) ≤ RMP.scoreProfessor q st nd
  · rw [if_pos h15]
    simp [List.filter, h15]
  · rw [if_neg h15]
    have h30 : ¬(30 : ℚ) ≤ RMP.scoreProfessor q st nd := by
      intro hc
      exact h15 (by linarith)
    simp [List.filter, h15, h30]

/-- Witness for the amended C6: a department context is truthy and the
singleton pool filter follows the score threshold for the gate-failing
candidate `qZzz`. -/
theorem C6_amended_single_pool_witness :
    RMP.truthy (some "Computer Science") = true ∧
    RMP.tierFilter [RMP.qZzz] "John Smith" (some "Computer Science") =
      if (15 : ℚ) ≤ RMP.scoreProfessor RMP.qZzz "John Smith" (some "Computer Science") then
        [RMP.qZzz]
      else [] :=
  ⟨by decide,
    C6_amended_single_pool RMP.qZzz "John Smith" (some "Computer Science") (by decide)⟩

namespace RMP

/-! ### SignalScorer invariant machinery for C7 -/

theorem mapSet_mem (st : ScorerState) (k : String) (w : ℚ) (srcs : List String) :
    ∀ c ∈ mapSet st k w srcs, c ∈ st ∨ c = ⟨k, w, srcs⟩ := by
  intro c hc
  unfold mapSet at hc
  split at hc
  · rcases List.mem_map.mp hc with ⟨c0, hc0, heq⟩
    by_cases h : (c0.cname == k) = true
    · right
      rw [← heq, if_pos h]
    · left
      rw [← heq, if_neg h]
      exact hc0
  · rcases List.mem_append.mp hc with h | h
    · left; exact h
    · right; simpa using h

theorem mapGet_some (st : ScorerState) (k : String) (c0 : Candidate)
    (h : mapGet st k = some c0) : c0 ∈ st ∧ c0.cname = k := by
  unfold mapGet at h
  refine ⟨List.mem_of_find?_eq_some h, ?_⟩
  have := List.find?_some h
  simpa using this

/-- One `addCandidate` call preserves the invariant "a stored candidate whose
cleaned name lacks every institution keyword, on a non-`.edu` page, has only
maximally-trusted sources". -/
theorem addCandidate_inv (isEdu : Bool) (st : ScorerState) (name : String) (w : ℚ)
    (src : String)
    (hInv : ∀ c ∈ st, hasSchoolKeyword c.cname = false → isEdu = false →
      ∀ s ∈ c.sources, s = "meta-og" ∨ s = "manual-override") :
    ∀ c ∈ addCandidate isEdu st name w src,
      hasSchoolKeyword c.cname = false → isEdu = false →
      ∀ s ∈ c.sources, s = "meta-og" ∨ s = "manual-override" := by
  intro c hc hkw hedu s hs
  simp only [addCandidate] at hc
  split at hc
  · exact hInv c hc hkw hedu s hs
  · split at hc
    · exact hInv c hc hkw hedu s hs
    · split at hc
      · exact hInv c hc hkw hedu s hs
      · split at hc
        · exact hInv c hc hkw hedu s hs
        · split at hc
          · exact hInv c hc hkw hedu s hs
          · rcases mapSet_mem _ _ _ _ c hc with hmem | rfl
            · exact hInv c hmem hkw hedu s hs
            · -- the freshly written entry: its sources are the previous entry's
              -- sources (trusted by `hInv`) plus the incoming `src`, and the
              -- rejection guard was not taken, so `src` is trusted
              rename_i hguard _ _ _
              have hsrc : src = "meta-og" ∨ src = "manual-override" := by
                by_contra hno
                push_neg at hno
                exact hguard ⟨hkw, hedu, hno.1, hno.2⟩
              rcases List.mem_append.mp hs with hs0 | hs0
              · cases hget : mapGet st (cleanCandidate name) with
                | none => rw [hget] at hs0; simp at hs0
                | some c0 =>
                  rw [hget] at hs0
                  obtain ⟨hc0mem, hc0name⟩ := mapGet_some st (cleanCandidate name) c0 hget
                  exact hInv c0 hc0mem (hc0name ▸ hkw) hedu s hs0
              · simp at hs0
                rw [hs0]
                exact hsrc

theorem runScorer_inv (isEdu : Bool) (signals : List (String × ℚ × String)) :
    ∀ c ∈ runScorer isEdu signals,
      hasSchoolKeyword c.cname = false → isEdu = false →
      ∀ s ∈ c.sources, s = "meta-og" ∨ s = "manual-override" := by
  unfold runScorer
  generalize hst : ([] : ScorerState) = st0
  have h0 : ∀ c ∈ st0, hasSchoolKeyword c.cname = false → isEdu = false →
      ∀ s ∈ c.sources, s = "meta-og" ∨ s = "manual-override" := by
    rw [← hst]; intro c hc; simp at hc
  clear hst
  induction signals generalizing st0 with
  | nil => exact h0
  | cons sg rest ih =>
    exact ih (addCandidate isEdu st0 sg.1 sg.2.1 sg.2.2)
      (addCandidate_inv isEdu st0 sg.1 sg.2.1 sg.2.2 h0)

theorem bestAux_mem (b : Candidate) (l : List Candidate) : bestAux b l ∈ b :: l := by
  induction l generalizing b with
  | nil => simp [bestAux]
  | cons c rest ih =>
    simp only [bestAux]
    split
    · have := ih c
      rcases List.mem_cons.mp this with h | h
      · rw [h]; simp
      · simp [h]
    · have := ih b
      rcases List.mem_cons.mp this with h | h
      · rw [h]; simp
      · simp [h]

theorem getBestMatch_mem (st : ScorerState) (k : String)
    (h : getBestMatch st = some k) : ∃ c ∈ st, c.cname = k := by
  cases st with
  | nil => exact absurd h (by simp [getBestMatch])
  | cons c rest =>
    refine ⟨bestAux c rest, bestAux_mem c rest, ?_⟩
    simpa [getBestMatch] using h

end RMP

/-- C7: for every page-signal list, if the SignalScorer selects a candidate
whose cleaned text lacks every institution keyword and the current domain is
not an educational TLD, then every source that contributed to that candidate
is maximally trusted (`meta-og` site metadata or `manual-override`) — a
non-keyword candidate from a non-high-trust, non-`.edu` source is never
returned. -/
theorem C7_keyword_or_trusted (isEdu : Bool) (signals : List (String × ℚ × String))
    (k : String) (hbest : RMP.getBestMatch (RMP.runScorer isEdu signals) = some k)
    (hkw : RMP.hasSchoolKeyword k = false) (hedu : isEdu = false) :
    ∃ c ∈ RMP.runScorer isEdu signals, c.cname = k ∧
      ∀ s ∈ c.sources, s = "meta-og" ∨ s = "manual-override" := by
  obtain ⟨c, hc, hname⟩ := RMP.getBestMatch_mem _ k hbest
  exact ⟨c, hc, hname,
    RMP.runScorer_inv isEdu signals c hc (hname ▸ hkw) hedu⟩

/-- Witness for C7: the single signal "Reed Center!" (no institution keyword)
from the maximally-trusted `meta-og` source on a non-`.edu` page is selected,
and its only source is indeed `meta-og`. -/
theorem C7_keyword_or_trusted_witness :
    RMP.getBestMatch (RMP.runScorer false [("Reed Center!", 10, "meta-og")]) =
      some "Reed Center!" ∧
    RMP.hasSchoolKeyword "Reed Center!" = false ∧
    ∃ c ∈ RMP.runScorer false [("Reed Center!", 10, "meta-og")], c.cname = "Reed Center!" ∧
      ∀ s ∈ c.sources, s = "meta-og" ∨ s = "manual-override" :=
  ⟨by decide, by decide,
    C7_keyword_or_trusted false [("Reed Center!", 10, "meta-og")] "Reed Center!"
      (by decide) (by decide) rfl⟩

namespace RMP

/-! ### Jaro-Winkler symmetry (C8)

The greedy match pass decomposes by character: a pair `(i, j)` can only match
equal characters, so the shared "used" marks never couple different character
classes.  Within one class the greedy scan equals the canonical two-pointer
matching `TP` of the two ascending position lists, and `TP` is manifestly
symmetric.  From the resulting pair-set transposition symmetry, `m` and the
transposition count `t` agree between `jaroWinkler a b` and
`jaroWinkler b a`. -/

/-- Positions of character `c` in `l`, ascending. -/
def posOf (c : Char) (l : List Char) : List Nat :=
  (List.range l.length).filter (fun j => decide (l.get? j = some c))

/-- The canonical two-pointer matching of two ascending position lists under
the window `|i - j| ≤ w`. -/
def TP : List Nat → List Nat → Int → List (Nat × Nat)
  | [], _, _ => []
  | _ :: _, [], _ => []
  | i :: A, j :: B, w =>
    if (i : Int) - w ≤ (j : Int) ∧ (j : Int) ≤ (i : Int) + w then
      (i, j) :: TP A B w
    else if (i : Int) + w < (j : Int) then
      TP A (j :: B) w
    else
      TP (i :: A) B w
termination_by A B _ => A.length + B.length

/-- The per-class greedy matching: process the `c`-positions of `s1` in order,
each time scanning `s2` with the source's inner loop (`jwScan`) against the
class-local used set. -/
def gC (b : List Char) (c : Char) (mw : Int) : List Nat → List Nat → List (Nat × Nat)
  | [], _ => []
  | i :: A, used =>
    match jwScan c b used
        (min ((i : Int) + mw + 1).toNat b.length - ((i : Int) - mw).toNat)
        ((i : Int) - mw).toNat with
    | some j => (i, j) :: gC b c mw A (j :: used)
    | none => gC b c mw A used

theorem jwScan_some (c : Char) (b : List Char) (used : List Nat) :
    ∀ (fuel j0 j : Nat), jwScan c b used fuel j0 = some j →
      j0 ≤ j ∧ j < j0 + fuel ∧ used.contains j = false ∧ b.get? j = some c ∧
      ∀ x, j0 ≤ x → x < j → ¬(used.contains x = false ∧ b.get? x = some c) := by
  intro fuel
  induction fuel with
  | zero => intro j0 j h; exact absurd h (by simp [jwScan])
  | succ n ih =>
    intro j0 j h
    rw [jwScan] at h
    split at h
    · rename_i hcond
      cases h
      exact ⟨le_rfl, by omega, hcond.1, hcond.2, fun x hx hx' => by omega⟩
    · rename_i hcond
      obtain ⟨h1, h2, h3, h4, h5⟩ := ih (j0 + 1) j h
      refine ⟨by omega, by omega, h3, h4, ?_⟩
      intro x hx hxj
      rcases Nat.eq_or_lt_of_le hx with rfl | hlt
      · exact hcond
      · exact h5 x hlt hxj

theorem jwScan_none (c : Char) (b : List Char) (used : List Nat) :
    ∀ (fuel j0 : Nat), jwScan c b used fuel j0 = none →
      ∀ x, j0 ≤ x → x < j0 + fuel → ¬(used.contains x = false ∧ b.get? x = some c) := by
  intro fuel
  induction fuel with
  | zero => intro j0 _ x hx hx'; omega
  | succ n ih =>
    intro j0 h x hx hx'
    rw [jwScan] at h
    split at h
    · exact absurd h (by simp)
    · rename_i hcond
      rcases Nat.eq_or_lt_of_le hx with rfl | hlt
      · exact hcond
      · exact ih (j0 + 1) h x hlt (by omega)

theorem jwScan_found (c : Char) (b : List Char) (used : List Nat) :
    ∀ (fuel j0 j : Nat), j0 ≤ j → j < j0 + fuel →
      used.contains j = false → b.get? j = some c →
      (∀ x, j0 ≤ x → x < j → ¬(used.contains x = false ∧ b.get? x = some c)) →
      jwScan c b used fuel j0 = some j := by
  intro fuel
  induction fuel with
  | zero => intro j0 j h1 h2; omega
  | succ n ih =>
    intro j0 j h1 h2 h3 h4 h5
    rcases Nat.eq_or_lt_of_le h1 with rfl | hlt
    · rw [jwScan, if_pos ⟨h3, h4⟩]
    · rw [jwScan, if_neg (h5 j0 le_rfl hlt)]
      exact ih (j0 + 1) j hlt (by omega) h3 h4 (fun x hx hxj => h5 x (by omega) hxj)

theorem jwScan_congr (c : Char) (b : List Char) :
    ∀ (fuel j0 : Nat) (used1 used2 : List Nat),
      (∀ x, j0 ≤ x → b.get? x = some c → used1.contains x = used2.contains x) →
      jwScan c b used1 fuel j0 = jwScan c b used2 fuel j0 := by
  intro fuel
  induction fuel with
  | zero => intro j0 u1 u2 _; simp [jwScan]
  | succ n ih =>
    intro j0 u1 u2 h
    have hiff : (u1.contains j0 = false ∧ b.get? j0 = some c) ↔
        (u2.contains j0 = false ∧ b.get? j0 = some c) := by
      by_cases hch : b.get? j0 = some c
      · rw [h j0 le_rfl hch]
      · exact iff_of_false (fun hc => hch hc.2) (fun hc => hch hc.2)
    rw [jwScan, jwScan]
    exact if_congr hiff rfl (ih (j0 + 1) u1 u2 (fun x hx hch => h x (by omega) hch))

theorem posOf_mem (c : Char) (l : List Char) (j : Nat) :
    j ∈ posOf c l ↔ l.get? j = some c := by
  simp only [posOf, List.mem_filter, List.mem_range, decide_eq_true_eq]
  constructor
  · rintro ⟨-, h⟩; exact h
  · intro h
    refine ⟨?_, h⟩
    by_contra hge
    push_neg at hge
    rw [List.get?_eq_none.mpr hge] at h
    cases h

theorem posOf_pairwise (c : Char) (l : List Char) :
    (posOf c l).Pairwise (· < ·) :=
  (List.pairwise_lt_range l.length).filter _

theorem gC_congr (b : List Char) (c : Char) (mw : Int) :
    ∀ (A : List Nat) (lo : Int), (∀ i' ∈ A, lo ≤ (i' : Int) - mw) →
      ∀ (used1 used2 : List Nat),
        (∀ x : Nat, lo ≤ (x : Int) → used1.contains x = used2.contains x) →
        gC b c mw A used1 = gC b c mw A used2 := by
  intro A
  induction A with
  | nil => intro lo _ u1 u2 _; rfl
  | cons i A ih =>
    intro lo hA u1 u2 h
    have hscan : jwScan c b u1
        (min ((i : Int) + mw + 1).toNat b.length - ((i : Int) - mw).toNat)
        ((i : Int) - mw).toNat =
      jwScan c b u2
        (min ((i : Int) + mw + 1).toNat b.length - ((i : Int) - mw).toNat)
        ((i : Int) - mw).toNat := by
      apply jwScan_congr
      intro x hx _
      apply h
      have : ((i : Int) - mw) ≤ (((i : Int) - mw).toNat : Int) := Int.self_le_toNat _
      have hlo := hA i (List.mem_cons_self i A)
      omega
    rw [gC, gC, hscan]
    cases hres : jwScan c b u2
        (min ((i : Int) + mw + 1).toNat b.length - ((i : Int) - mw).toNat)
        ((i : Int) - mw).toNat with
    | none => exact ih lo (fun i' hi' => hA i' (List.mem_cons_of_mem i hi')) u1 u2 h
    | some j =>
      have : gC b c mw A (j :: u1) = gC b c mw A (j :: u2) := by
        apply ih lo (fun i' hi' => hA i' (List.mem_cons_of_mem i hi'))
        intro x hx
        simp only [List.contains_cons]
        rw [h x hx]
      exact congrArg (fun l => (i, j) :: l) this

theorem gC_congr_full (b : List Char) (c : Char) (mw : Int) :
    ∀ (A : List Nat) (used1 used2 : List Nat),
      (∀ x : Nat, used1.contains x = used2.contains x) →
      gC b c mw A used1 = gC b c mw A used2 := by
  intro A
  induction A with
  | nil => intro u1 u2 _; rfl
  | cons i A ih =>
    intro u1 u2 h
    have hscan : jwScan c b u1
        (min ((i : Int) + mw + 1).toNat b.length - ((i : Int) - mw).toNat)
        ((i : Int) - mw).toNat =
      jwScan c b u2
        (min ((i : Int) + mw + 1).toNat b.length - ((i : Int) - mw).toNat)
        ((i : Int) - mw).toNat := jwScan_congr c b _ _ u1 u2 (fun x _ _ => h x)
    rw [gC, gC, hscan]
    cases hres : jwScan c b u2
        (min ((i : Int) + mw + 1).toNat b.length - ((i : Int) - mw).toNat)
        ((i : Int) - mw).toNat with
    | none => exact ih u1 u2 h
    | some j =>
      have : gC b c mw A (j :: u1) = gC b c mw A (j :: u2) := by
        apply ih
        intro x
        simp only [List.contains_cons]
        rw [h x]
      exact congrArg (fun l => (i, j) :: l) this

theorem TP_neg : ∀ (A B : List Nat) (w : Int), w < 0 → TP A B w = []
  | [], _, _, _ => by simp [TP]
  | _ :: _, [], _, _ => by simp [TP]
  | i :: A, j :: B, w, hw => by
    rw [TP]
    rw [if_neg (by omega)]
    split
    · exact TP_neg A (j :: B) w hw
    · exact TP_neg (i :: A) B w hw
termination_by A B _ _ => A.length + B.length

theorem TP_swap : ∀ (A B : List Nat) (w : Int),
    TP B A w = (TP A B w).map (fun pr => (pr.2, pr.1))
  | [], [], _ => by simp [TP]
  | [], _ :: _, _ => by simp [TP]
  | _ :: _, [], _ => by simp [TP]
  | i :: A, j :: B, w => by
    rcases lt_or_le w 0 with hw | hw
    · rw [TP_neg _ _ _ hw, TP_neg _ _ _ hw]
      simp
    rw [TP, TP]
    by_cases h1 : (i : Int) - w ≤ (j : Int) ∧ (j : Int) ≤ (i : Int) + w
    · rw [if_pos h1,
        if_pos (show (j : Int) - w ≤ (i : Int) ∧ (i : Int) ≤ (j : Int) + w by omega)]
      simp [TP_swap A B w]
    · rw [if_neg h1,
        if_neg (show ¬((j : Int) - w ≤ (i : Int) ∧ (i : Int) ≤ (j : Int) + w) by omega)]
      by_cases h2 : (i : Int) + w < (j : Int)
      · rw [if_pos h2, if_neg (show ¬((j : Int) + w < (i : Int)) by omega)]
        exact TP_swap A (j :: B) w
      · rw [if_neg h2, if_pos (show (j : Int) + w < (i : Int) by omega)]
        exact TP_swap (i :: A) B w
termination_by A B _ => A.length + B.length

theorem filter_used_cons (l : List Nat) (j : Nat) (used : List Nat) :
    l.filter (fun x => !((j :: used).contains x)) =
      (l.filter (fun x => !(used.contains x))).filter (fun x => !(x == j)) := by
  rw [List.filter_filter]
  apply List.filter_congr
  intro x _
  simp only [List.contains_cons, Bool.not_or]

theorem filter_ne_head (j : Nat) (t : List Nat) (hpw : (j :: t).Pairwise (· < ·)) :
    (j :: t).filter (fun x => !(x == j)) = t := by
  rw [List.filter_cons]
  simp only [beq_self_eq_true, Bool.not_true]
  rw [if_neg (by simp)]
  apply List.filter_eq_self.mpr
  intro x hx
  have : j < x := (List.pairwise_cons.mp hpw).1 x hx
  simp only [Bool.not_eq_true']
  exact beq_eq_false_iff_ne.mpr (by omega)

theorem gC_eq_TP (b : List Char) (c : Char) (mw : Int) :
    ∀ (n : Nat) (A used : List Nat),
      A.length + ((posOf c b).filter (fun x => !(used.contains x))).length ≤ n →
      A.Pairwise (· < ·) →
      gC b c mw A used = TP A ((posOf c b).filter (fun x => !(used.contains x))) mw := by
  intro n
  induction n with
  | zero =>
    intro A used hlen hA
    have : A = [] := List.length_eq_zero.mp (by omega)
    subst this
    cases ((posOf c b).filter (fun x => !(used.contains x))) <;> simp [gC, TP]
  | succ n ih =>
    intro A used hlen hA
    cases A with
    | nil =>
      cases ((posOf c b).filter (fun x => !(used.contains x))) <;> simp [gC, TP]
    | cons i A' =>
      have hA' : A'.Pairwise (· < ·) := (List.pairwise_cons.mp hA).2
      have hAlt : ∀ i' ∈ A', i < i' := (List.pairwise_cons.mp hA).1
      have hBpw : ((posOf c b).filter (fun x => !(used.contains x))).Pairwise (· < ·) :=
        (posOf_pairwise c b).filter _
      cases hBc : (posOf c b).filter (fun x => !(used.contains x)) with
      | nil =>
        -- no free c-position at all: the scan cannot succeed
        have hscan : jwScan c b used
            (min ((i : Int) + mw + 1).toNat b.length - ((i : Int) - mw).toNat)
            ((i : Int) - mw).toNat = none := by
          cases hs : jwScan c b used
              (min ((i : Int) + mw + 1).toNat b.length - ((i : Int) - mw).toNat)
              ((i : Int) - mw).toNat with
          | none => rfl
          | some j0 =>
            obtain ⟨-, -, hfree, hchar, -⟩ := jwScan_some c b used _ _ _ hs
            have : j0 ∈ (posOf c b).filter (fun x => !(used.contains x)) := by
              rw [List.mem_filter]
              exact ⟨(posOf_mem c b j0).mpr hchar, by simp only [hfree, Bool.not_false]⟩
            rw [hBc] at this
            cases this
        rw [gC, hscan, TP]
        have hlen' : A'.length +
            ((posOf c b).filter (fun x => !(used.contains x))).length ≤ n := by
          rw [hBc]; rw [hBc] at hlen; simp at hlen ⊢; omega
        rw [ih A' used hlen' hA', hBc]
        cases A' <;> simp [TP]
      | cons j t =>
        have hjB : j ∈ (posOf c b).filter (fun x => !(used.contains x)) := by
          rw [hBc]; exact List.mem_cons_self j t
        have hjpos : b.get? j = some c :=
          (posOf_mem c b j).mp (List.mem_filter.mp hjB).1
        have hjfree : used.contains j = false := by
          have := (List.mem_filter.mp hjB).2
          simpa using this
        have hjlen : j < b.length := by
          by_contra hge
          push_neg at hge
          rw [List.get?_eq_none.mpr hge] at hjpos
          cases hjpos
        have htlt : ∀ x ∈ t, j < x := by
          rw [hBc] at hBpw
          exact (List.pairwise_cons.mp hBpw).1
        have hmemB : ∀ x, x ∈ (posOf c b).filter (fun x => !(used.contains x)) ↔
            (b.get? x = some c ∧ used.contains x = false) := by
          intro x
          rw [List.mem_filter, posOf_mem]
          simp
        by_cases hc1 : (i : Int) - mw ≤ (j : Int) ∧ (j : Int) ≤ (i : Int) + mw
        · -- window hit: the scan returns exactly j
          have hscan : jwScan c b used
              (min ((i : Int) + mw + 1).toNat b.length - ((i : Int) - mw).toNat)
              ((i : Int) - mw).toNat = some j := by
            apply jwScan_found
            · omega
            · have h1 : j < ((i : Int) + mw + 1).toNat := by omega
              have h2 : ((i : Int) - mw).toNat ≤ j := by omega
              have := Nat.lt_min.mpr ⟨h1, hjlen⟩
              omega
            · exact hjfree
            · exact hjpos
            · intro x hx hxj hcon
              have : x ∈ (posOf c b).filter (fun x => !(used.contains x)) :=
                (hmemB x).mpr ⟨hcon.2, hcon.1⟩
              rw [hBc] at this
              rcases List.mem_cons.mp this with rfl | hxt
              · omega
              · exact absurd (htlt x hxt) (by omega)
          rw [gC, hscan]
          show (i, j) :: gC b c mw A' (j :: used) = _
          rw [TP, if_pos hc1]
          have hft : (posOf c b).filter (fun x => !((j :: used).contains x)) = t := by
            rw [filter_used_cons, hBc]
            exact filter_ne_head j t (hBc ▸ hBpw)
          have hlen' : A'.length +
              ((posOf c b).filter (fun x => !((j :: used).contains x))).length ≤ n := by
            rw [hft]
            rw [hBc] at hlen
            simp at hlen ⊢
            omega
          rw [ih A' (j :: used) hlen' hA', hft]
        · by_cases hc2 : (i : Int) + mw < (j : Int)
          · -- every free c-position is beyond the window: scan fails
            have hscan : jwScan c b used
                (min ((i : Int) + mw + 1).toNat b.length - ((i : Int) - mw).toNat)
                ((i : Int) - mw).toNat = none := by
              cases hs : jwScan c b used
                  (min ((i : Int) + mw + 1).toNat b.length - ((i : Int) - mw).toNat)
                  ((i : Int) - mw).toNat with
              | none => rfl
              | some j0 =>
                obtain ⟨hge, hlt, hfree, hchar, -⟩ := jwScan_some c b used _ _ _ hs
                have hj0B : j0 ∈ (posOf c b).filter (fun x => !(used.contains x)) :=
                  (hmemB j0).mpr ⟨hchar, hfree⟩
                rw [hBc] at hj0B
                have hj0ge : j ≤ j0 := by
                  rcases List.mem_cons.mp hj0B with rfl | hj0t
                  · omega
                  · exact le_of_lt (htlt j0 hj0t)
                have hup : j0 < ((i : Int) + mw + 1).toNat := by
                  have := Nat.lt_min.mp (by omega : j0 < min ((i : Int) + mw + 1).toNat b.length)
                  exact this.1
                omega
            rw [gC, hscan]
            show gC b c mw A' used = _
            rw [TP, if_neg hc1, if_pos hc2]
            have hlen' : A'.length +
                ((posOf c b).filter (fun x => !(used.contains x))).length ≤ n := by
              simp at hlen ⊢
              omega
            rw [ih A' used hlen' hA', hBc]
          · -- j is below every window: mark it used and recurse on t
            have hc3 : (j : Int) < (i : Int) - mw := by omega
            have hcongr : gC b c mw (i :: A') used = gC b c mw (i :: A') (j :: used) := by
              apply gC_congr b c mw (i :: A') ((j : Int) + 1)
              · intro i' hi'
                rcases List.mem_cons.mp hi' with rfl | hi'A
                · omega
                · have := hAlt i' hi'A
                  omega
              · intro x hx
                simp only [List.contains_cons]
                have : (x == j) = false := beq_eq_false_iff_ne.mpr (by omega)
                rw [this]
                simp
            rw [hcongr]
            have hft : (posOf c b).filter (fun x => !((j :: used).contains x)) = t := by
              rw [filter_used_cons, hBc]
              exact filter_ne_head j t (hBc ▸ hBpw)
            have hlen' : (i :: A').length +
                ((posOf c b).filter (fun x => !((j :: used).contains x))).length ≤ n := by
              rw [hft]
              rw [hBc] at hlen
              simp at hlen ⊢
              omega
            rw [ih (i :: A') (j :: used) hlen' hA, hft]
            rw [TP, if_neg hc1, if_neg hc2]

theorem filter_ge_split (i : Nat) :
    ∀ (l : List Nat), l.Pairwise (· < ·) →
      l.filter (fun p => decide (i ≤ p)) =
        (if i ∈ l then [i] else []) ++ l.filter (fun p => decide (i + 1 ≤ p)) := by
  intro l
  induction l with
  | nil => simp
  | cons x xs ih =>
    intro hpw
    have hxs : ∀ y ∈ xs, x < y := (List.pairwise_cons.mp hpw).1
    have hpw' : xs.Pairwise (· < ·) := (List.pairwise_cons.mp hpw).2
    rcases lt_trichotomy x i with hlt | rfl | hgt
    · have e1 : (x :: xs).filter (fun p => decide (i ≤ p)) =
          xs.filter (fun p => decide (i ≤ p)) := by
        rw [List.filter_cons, if_neg]
        simp only [decide_eq_true_eq]
        omega
      have e2 : (x :: xs).filter (fun p => decide (i + 1 ≤ p)) =
          xs.filter (fun p => decide (i + 1 ≤ p)) := by
        rw [List.filter_cons, if_neg]
        simp only [decide_eq_true_eq]
        omega
      have e3 : (if i ∈ x :: xs then ([i] : List Nat) else []) =
          (if i ∈ xs then [i] else []) := by
        apply if_congr ?_ rfl rfl
        simp only [List.mem_cons]
        constructor
        · rintro (rfl | h)
          · omega
          · exact h
        · exact Or.inr
      rw [e1, e2, e3, ih hpw']
    · have hxall : ∀ y ∈ xs, x + 1 ≤ y := fun y hy => hxs y hy
      have e1 : (x :: xs).filter (fun p => decide (x ≤ p)) = x :: xs := by
        rw [List.filter_cons, if_pos (by simp)]
        rw [List.filter_eq_self.mpr (fun y hy => by
          simp only [decide_eq_true_eq]
          exact le_of_lt (hxs y hy))]
      have e2 : (x :: xs).filter (fun p => decide (x + 1 ≤ p)) = xs := by
        rw [List.filter_cons, if_neg (by simp)]
        exact List.filter_eq_self.mpr (fun y hy => by
          simp only [decide_eq_true_eq]
          exact hxs y hy)
      rw [e1, e2, if_pos (List.mem_cons_self x xs)]
      rfl
    · have e1 : (x :: xs).filter (fun p => decide (i ≤ p)) = x :: xs := by
        rw [List.filter_cons, if_pos (by simp only [decide_eq_true_eq]; omega)]
        rw [List.filter_eq_self.mpr (fun y hy => by
          simp only [decide_eq_true_eq]
          have := hxs y hy
          omega)]
      have e2 : (x :: xs).filter (fun p => decide (i + 1 ≤ p)) = x :: xs := by
        rw [List.filter_cons, if_pos (by simp only [decide_eq_true_eq]; omega)]
        rw [List.filter_eq_self.mpr (fun y hy => by
          simp only [decide_eq_true_eq]
          have := hxs y hy
          omega)]
      have e3 : i ∉ x :: xs := by
        simp only [List.mem_cons]
        rintro (rfl | h)
        · omega
        · have := hxs i h
          omega
      rw [e1, e2, if_neg e3]
      rfl

theorem contains_true_of_mem {l : List Nat} {x : Nat} (h : x ∈ l) :
    l.contains x = true :=
  List.elem_eq_true_of_mem h

theorem contains_false_of_not_mem {l : List Nat} {x : Nat} (h : x ∉ l) :
    l.contains x = false := by
  simpa [List.contains, List.elem_eq_mem] using h

theorem classUsed_congr (a b : List Char) (c : Char) (acc : List (Nat × Nat))
    (hinv : ∀ pr ∈ acc, a.get? pr.1 = b.get? pr.2) :
    ∀ x : Nat, b.get? x = some c →
      (acc.map Prod.snd).contains x =
      ((acc.filter (fun pr => decide (a.get? pr.1 = some c))).map Prod.snd).contains x := by
  intro x hx
  by_cases hmem : x ∈ acc.map Prod.snd
  · obtain ⟨pr, hpr, hpr2⟩ := List.mem_map.mp hmem
    have hchar : a.get? pr.1 = some c := by
      rw [hinv pr hpr, hpr2, hx]
    have hmem2 : x ∈ (acc.filter (fun pr => decide (a.get? pr.1 = some c))).map Prod.snd :=
      List.mem_map.mpr ⟨pr, List.mem_filter.mpr ⟨hpr, decide_eq_true hchar⟩, hpr2⟩
    rw [contains_true_of_mem hmem, contains_true_of_mem hmem2]
  · have hmem2 : x ∉ (acc.filter (fun pr => decide (a.get? pr.1 = some c))).map Prod.snd := by
      intro hc
      obtain ⟨pr, hpr, hpr2⟩ := List.mem_map.mp hc
      exact hmem (List.mem_map.mpr ⟨pr, (List.mem_filter.mp hpr).1, hpr2⟩)
    rw [contains_false_of_not_mem hmem, contains_false_of_not_mem hmem2]

theorem contains_snoc_comm (l : List Nat) (j x : Nat) :
    (l ++ [j]).contains x = (j :: l).contains x := by
  by_cases h1 : x = j
  · subst h1
    rw [contains_true_of_mem (by simp), contains_true_of_mem (by simp)]
  · by_cases h2 : x ∈ l
    · rw [contains_true_of_mem (by simp [h2]), contains_true_of_mem (by simp [h2])]
    · rw [contains_false_of_not_mem (by simp [h1, h2]),
        contains_false_of_not_mem (by simp [h1, h2])]

theorem jwLoop_classes (a b : List Char) (mw : Int) :
    ∀ (rem : List Char) (i : Nat) (acc : List (Nat × Nat)),
      rem = a.drop i →
      (∀ pr ∈ acc, pr.1 < i ∧ a.get? pr.1 = b.get? pr.2) →
      ∀ c, (jwLoop b mw rem i acc).filter (fun pr => decide (a.get? pr.1 = some c)) =
        acc.filter (fun pr => decide (a.get? pr.1 = some c)) ++
        gC b c mw ((posOf c a).filter (fun p => decide (i ≤ p)))
          ((acc.filter (fun pr => decide (a.get? pr.1 = some c))).map Prod.snd) := by
  intro rem
  induction rem with
  | nil =>
    intro i acc hrem _hinv c
    have hge : a.length ≤ i := by
      by_contra hlt
      push_neg at hlt
      have := List.drop_eq_nil_iff.mp hrem.symm
      omega
    have hpos : (posOf c a).filter (fun p => decide (i ≤ p)) = [] := by
      apply List.filter_eq_nil_iff.mpr
      intro p hp
      have := (posOf_mem c a p).mp hp
      have hplt : p < a.length := by
        by_contra hge2
        push_neg at hge2
        rw [List.get?_eq_none.mpr hge2] at this
        cases this
      simp only [decide_eq_true_eq]
      omega
    rw [jwLoop, hpos, gC]
    simp
  | cons ch rest ih =>
    intro i acc hrem hinv c
    have hi : i < a.length := by
      by_contra hge
      push_neg at hge
      rw [List.drop_eq_nil_iff.mpr hge] at hrem
      exact absurd hrem (by simp)
    have hchar : a.get? i = some ch := by
      have := congrArg List.head? hrem
      rw [List.head?_drop] at this
      simpa using this.symm
    have hrest : rest = a.drop (i + 1) := by
      have := congrArg List.tail hrem
      simpa [List.tail_drop] using this
    have hinvsnd : ∀ pr ∈ acc, a.get? pr.1 = b.get? pr.2 := fun pr hpr => (hinv pr hpr).2
    simp only [jwLoop]
    cases hscan : jwScan ch b (acc.map Prod.snd)
        (min ((i : Int) + mw + 1).toNat b.length - ((i : Int) - mw).toNat)
        ((i : Int) - mw).toNat with
    | some j =>
      obtain ⟨-, -, hjfree, hjchar, -⟩ := jwScan_some ch b (acc.map Prod.snd) _ _ _ hscan
      have hinv' : ∀ pr ∈ acc ++ [(i, j)], pr.1 < i + 1 ∧ a.get? pr.1 = b.get? pr.2 := by
        intro pr hpr
        rcases List.mem_append.mp hpr with h | h
        · exact ⟨by have := (hinv pr h).1; omega, (hinv pr h).2⟩
        · simp at h
          rw [h]
          exact ⟨by omega, by rw [hchar, hjchar]⟩
      rw [ih (i + 1) (acc ++ [(i, j)]) hrest hinv' c]
      by_cases hcc : c = ch
      · subst hcc
        have hfacc : (acc ++ [(i, j)]).filter (fun pr => decide (a.get? pr.1 = some c)) =
            acc.filter (fun pr => decide (a.get? pr.1 = some c)) ++ [(i, j)] := by
          rw [List.filter_append]
          congr 1
          rw [List.filter_cons]
          rw [if_pos (decide_eq_true hchar)]
          rfl
        rw [hfacc]
        have hpos : (posOf c a).filter (fun p => decide (i ≤ p)) =
            i :: (posOf c a).filter (fun p => decide (i + 1 ≤ p)) := by
          rw [filter_ge_split i (posOf c a) (posOf_pairwise c a),
            if_pos ((posOf_mem c a i).mpr hchar)]
          rfl
        rw [hpos, gC]
        have hscan2 : jwScan c b
            ((acc.filter (fun pr => decide (a.get? pr.1 = some c))).map Prod.snd)
            (min ((i : Int) + mw + 1).toNat b.length - ((i : Int) - mw).toNat)
            ((i : Int) - mw).toNat = some j := by
          rw [← jwScan_congr c b _ _ _ _
            (fun x _ hx => classUsed_congr a b c acc hinvsnd x hx)]
          exact hscan
        rw [hscan2]
        have husedeq : gC b c mw ((posOf c a).filter (fun p => decide (i + 1 ≤ p)))
            ((acc.filter (fun pr => decide (a.get? pr.1 = some c)) ++ [(i, j)]).map Prod.snd) =
            gC b c mw ((posOf c a).filter (fun p => decide (i + 1 ≤ p)))
            (j :: (acc.filter (fun pr => decide (a.get? pr.1 = some c))).map Prod.snd) := by
          apply gC_congr_full
          intro x
          simpa using contains_snoc_comm
            ((acc.filter (fun pr => decide (a.get? pr.1 = some c))).map Prod.snd) j x
        rw [husedeq]
        simp
      · have hfacc : (acc ++ [(i, j)]).filter (fun pr => decide (a.get? pr.1 = some c)) =
            acc.filter (fun pr => decide (a.get? pr.1 = some c)) := by
          rw [List.filter_append]
          have : [(i, j)].filter (fun pr => decide (a.get? pr.1 = some c)) = [] := by
            rw [List.filter_cons]
            rw [if_neg (by
              simp only [decide_eq_true_eq]
              intro hc
              rw [hchar] at hc
              exact hcc (Option.some.inj hc).symm)]
            rfl
          rw [this, List.append_nil]
        have hpos : (posOf c a).filter (fun p => decide (i ≤ p)) =
            (posOf c a).filter (fun p => decide (i + 1 ≤ p)) := by
          rw [filter_ge_split i (posOf c a) (posOf_pairwise c a), if_neg]
          · rfl
          · intro hc
            have := (posOf_mem c a i).mp hc
            rw [hchar] at this
            exact hcc (by injection this; simp_all)
        rw [hfacc, hpos]
    | none =>
      rw [ih (i + 1) acc hrest
        (fun pr hpr => ⟨by have := (hinv pr hpr).1; omega, (hinv pr hpr).2⟩) c]
      by_cases hcc : c = ch
      · subst hcc
        have hpos : (posOf c a).filter (fun p => decide (i ≤ p)) =
            i :: (posOf c a).filter (fun p => decide (i + 1 ≤ p)) := by
          rw [filter_ge_split i (posOf c a) (posOf_pairwise c a),
            if_pos ((posOf_mem c a i).mpr hchar)]
          rfl
        rw [hpos, gC]
        have hscan2 : jwScan c b
            ((acc.filter (fun pr => decide (a.get? pr.1 = some c))).map Prod.snd)
            (min ((i : Int) + mw + 1).toNat b.length - ((i : Int) - mw).toNat)
            ((i : Int) - mw).toNat = none := by
          rw [← jwScan_congr c b _ _ _ _
            (fun x _ hx => classUsed_congr a b c acc hinvsnd x hx)]
          exact hscan
        rw [hscan2]
      · have hpos : (posOf c a).filter (fun p => decide (i ≤ p)) =
            (posOf c a).filter (fun p => decide (i + 1 ≤ p)) := by
          rw [filter_ge_split i (posOf c a) (posOf_pairwise c a), if_neg]
          · rfl
          · intro hc
            have := (posOf_mem c a i).mp hc
            rw [hchar] at this
            exact hcc (by injection this; simp_all)
        rw [hpos]

theorem jwLoop_sound (a b : List Char) (mw : Int) :
    ∀ (rem : List Char) (i : Nat) (acc : List (Nat × Nat)),
      rem = a.drop i →
      (∀ pr ∈ acc, ∃ c, a.get? pr.1 = some c ∧ b.get? pr.2 = some c) →
      ∀ pr ∈ jwLoop b mw rem i acc, ∃ c, a.get? pr.1 = some c ∧ b.get? pr.2 = some c := by
  intro rem
  induction rem with
  | nil =>
    intro i acc _ hinv pr hpr
    rw [jwLoop] at hpr
    exact hinv pr hpr
  | cons ch rest ih =>
    intro i acc hrem hinv pr hpr
    have hi : i < a.length := by
      by_contra hge
      push_neg at hge
      rw [List.drop_eq_nil_iff.mpr hge] at hrem
      exact absurd hrem (by simp)
    have hchar : a.get? i = some ch := by
      have := congrArg List.head? hrem
      rw [List.head?_drop] at this
      simpa using this.symm
    have hrest : rest = a.drop (i + 1) := by
      have := congrArg List.tail hrem
      simpa [List.tail_drop] using this
    rw [jwLoop] at hpr
    revert hpr
    cases hscan : jwScan ch b (acc.map Prod.snd)
        (min ((i : Int) + mw + 1).toNat b.length - ((i : Int) - mw).toNat)
        ((i : Int) - mw).toNat with
    | some j =>
      intro hpr
      obtain ⟨-, -, -, hjchar, -⟩ := jwScan_some ch b (acc.map Prod.snd) _ _ _ hscan
      refine ih (i + 1) (acc ++ [(i, j)]) hrest ?_ pr hpr
      intro q hq
      rcases List.mem_append.mp hq with h | h
      · exact hinv q h
      · simp at h
        rw [h]
        exact ⟨ch, hchar, hjchar⟩
    | none =>
      intro hpr
      exact ih (i + 1) acc hrest hinv pr hpr

theorem jwPairs_sound (a b : List Char) (mw : Int) :
    ∀ pr ∈ jwPairs a b mw, ∃ c, a.get? pr.1 = some c ∧ b.get? pr.2 = some c :=
  jwLoop_sound a b mw a 0 [] (by simp) (by simp)

theorem jwLoop_fst_sorted (a b : List Char) (mw : Int) :
    ∀ (rem : List Char) (i : Nat) (acc : List (Nat × Nat)),
      rem = a.drop i →
      acc.Pairwise (fun p q => p.1 < q.1) →
      (∀ pr ∈ acc, pr.1 < i) →
      (jwLoop b mw rem i acc).Pairwise (fun p q => p.1 < q.1) := by
  intro rem
  induction rem with
  | nil =>
    intro i acc _ hsort _
    rw [jwLoop]
    exact hsort
  | cons ch rest ih =>
    intro i acc hrem hsort hlt
    have hi : i < a.length := by
      by_contra hge
      push_neg at hge
      rw [List.drop_eq_nil_iff.mpr hge] at hrem
      exact absurd hrem (by simp)
    have hrest : rest = a.drop (i + 1) := by
      have := congrArg List.tail hrem
      simpa [List.tail_drop] using this
    rw [jwLoop]
    cases hscan : jwScan ch b (acc.map Prod.snd)
        (min ((i : Int) + mw + 1).toNat b.length - ((i : Int) - mw).toNat)
        ((i : Int) - mw).toNat with
    | some j =>
      refine ih (i + 1) (acc ++ [(i, j)]) hrest ?_ ?_
      · rw [List.pairwise_append]
        refine ⟨hsort, by simp, ?_⟩
        intro p hp q hq
        simp at hq
        rw [hq]
        exact hlt p hp
      · intro pr hpr
        rcases List.mem_append.mp hpr with h | h
        · have := hlt pr h
          omega
        · simp at h
          rw [h]
          omega
    | none =>
      exact ih (i + 1) acc hrest hsort (fun pr hpr => by have := hlt pr hpr; omega)

theorem jwPairs_fst_sorted (a b : List Char) (mw : Int) :
    (jwPairs a b mw).Pairwise (fun p q => p.1 < q.1) :=
  jwLoop_fst_sorted a b mw a 0 [] (by simp) (by simp) (by simp)

theorem jwPairs_classes (a b : List Char) (mw : Int) (c : Char) :
    (jwPairs a b mw).filter (fun pr => decide (a.get? pr.1 = some c)) =
      TP (posOf c a) (posOf c b) mw := by
  have h0 := jwLoop_classes a b mw a 0 [] (by simp) (by simp) c
  rw [jwPairs, h0]
  simp only [List.filter_nil, List.map_nil, List.nil_append]
  have hfa : (posOf c a).filter (fun p => decide (0 ≤ p)) = posOf c a :=
    List.filter_eq_self.mpr (fun p _ => by simp)
  rw [hfa]
  have hmain := gC_eq_TP b c mw
    ((posOf c a).length + ((posOf c b).filter (fun x => !(([] : List Nat).contains x))).length)
    (posOf c a) [] le_rfl (posOf_pairwise c a)
  rw [hmain]
  congr 1
  exact List.filter_eq_self.mpr (fun x _ => by simp [List.contains])

theorem mem_jwPairs_iff (a b : List Char) (mw : Int) (i j : Nat) :
    (i, j) ∈ jwPairs a b mw ↔
      ∃ c, a.get? i = some c ∧ b.get? j = some c ∧ (i, j) ∈ TP (posOf c a) (posOf c b) mw := by
  constructor
  · intro h
    obtain ⟨c, hc1, hc2⟩ := jwPairs_sound a b mw (i, j) h
    refine ⟨c, hc1, hc2, ?_⟩
    rw [← jwPairs_classes a b mw c]
    exact List.mem_filter.mpr ⟨h, decide_eq_true hc1⟩
  · rintro ⟨c, _, _, hTP⟩
    have h2 : (i, j) ∈ (jwPairs a b mw).filter (fun pr => decide (a.get? pr.1 = some c)) := by
      rw [jwPairs_classes a b mw c]
      exact hTP
    exact (List.mem_filter.mp h2).1

theorem mem_TP_swap (A B : List Nat) (w : Int) (i j : Nat) :
    (i, j) ∈ TP A B w ↔ (j, i) ∈ TP B A w := by
  rw [TP_swap A B w]
  constructor
  · intro h
    exact List.mem_map.mpr ⟨(i, j), h, rfl⟩
  · intro h
    obtain ⟨pr, hpr, heq⟩ := List.mem_map.mp h
    have h1 : pr.2 = j := congrArg Prod.fst heq
    have h2 : pr.1 = i := congrArg Prod.snd heq
    have : pr = (i, j) := Prod.ext h2 h1
    rw [← this]
    exact hpr

theorem mem_jwPairs_swap (a b : List Char) (mw : Int) (i j : Nat) :
    (i, j) ∈ jwPairs a b mw ↔ (j, i) ∈ jwPairs b a mw := by
  rw [mem_jwPairs_iff, mem_jwPairs_iff]
  constructor
  · rintro ⟨c, h1, h2, hTP⟩
    exact ⟨c, h2, h1, (mem_TP_swap (posOf c a) (posOf c b) mw i j).mp hTP⟩
  · rintro ⟨c, h1, h2, hTP⟩
    exact ⟨c, h2, h1, (mem_TP_swap (posOf c b) (posOf c a) mw j i).mp hTP⟩

theorem sorted_lt_eq_of_mem_iff :
    ∀ (l1 l2 : List Nat), l1.Pairwise (· < ·) → l2.Pairwise (· < ·) →
      (∀ x, x ∈ l1 ↔ x ∈ l2) → l1 = l2
  | [], [], _, _, _ => rfl
  | [], y :: l2, _, _, h => absurd ((h y).mpr (List.mem_cons_self y l2)) (by simp)
  | x :: l1, [], _, _, h => absurd ((h x).mp (List.mem_cons_self x l1)) (by simp)
  | x :: l1, y :: l2, h1, h2, h => by
    have hxy : x = y := by
      rcases List.mem_cons.mp ((h x).mp (List.mem_cons_self x l1)) with h' | h'
      · exact h'
      · rcases List.mem_cons.mp ((h y).mpr (List.mem_cons_self y l2)) with h'' | h''
        · exact h''.symm
        · have hyx := List.rel_of_pairwise_cons h1 h''
          have hxy2 := List.rel_of_pairwise_cons h2 h'
          omega
    subst hxy
    have htail : ∀ z, z ∈ l1 ↔ z ∈ l2 := by
      intro z
      constructor
      · intro hz
        have hne : z ≠ x := fun hc => by
          have := List.rel_of_pairwise_cons h1 hz
          omega
        rcases List.mem_cons.mp ((h z).mp (List.mem_cons_of_mem x hz)) with h' | h'
        · exact absurd h' hne
        · exact h'
      · intro hz
        have hne : z ≠ x := fun hc => by
          have := List.rel_of_pairwise_cons h2 hz
          omega
        rcases List.mem_cons.mp ((h z).mpr (List.mem_cons_of_mem x hz)) with h' | h'
        · exact absurd h' hne
        · exact h'
    rw [sorted_lt_eq_of_mem_iff l1 l2 (List.Pairwise.of_cons h1) (List.Pairwise.of_cons h2) htail]

theorem jwPairs_nodup (a b : List Char) (mw : Int) : (jwPairs a b mw).Nodup := by
  refine (jwPairs_fst_sorted a b mw).imp ?_
  intro p q h hc
  rw [hc] at h
  omega

theorem jwPairs_swap_perm (a b : List Char) (mw : Int) :
    ((jwPairs a b mw).map (fun pr => (pr.2, pr.1))).Perm (jwPairs b a mw) := by
  apply (List.perm_ext_iff_of_nodup ?_ (jwPairs_nodup b a mw)).mpr
  · intro pr
    obtain ⟨j, i⟩ := pr
    constructor
    · intro h
      obtain ⟨⟨i0, j0⟩, hq, heq⟩ := List.mem_map.mp h
      have h1 : j0 = j := congrArg Prod.fst heq
      have h2 : i0 = i := congrArg Prod.snd heq
      subst h1
      subst h2
      exact (mem_jwPairs_swap a b mw i0 j0).mp hq
    · intro h
      exact List.mem_map.mpr ⟨(i, j), (mem_jwPairs_swap b a mw j i).mp h, rfl⟩
  · refine List.Nodup.map ?_ (jwPairs_nodup a b mw)
    intro p q hpq
    have h1 : p.2 = q.2 := congrArg Prod.fst hpq
    have h2 : p.1 = q.1 := congrArg Prod.snd hpq
    exact Prod.ext h2 h1

theorem jwPairs_length_comm (a b : List Char) (mw : Int) :
    (jwPairs a b mw).length = (jwPairs b a mw).length := by
  have := (jwPairs_swap_perm a b mw).length_eq
  simpa using this

theorem get_some_lt_length {l : List Char} {n : Nat} {c : Char}
    (h : l.get? n = some c) : n < l.length := by
  by_contra hge
  push_neg at hge
  rw [List.get?_eq_none.mpr hge] at h
  cases h

theorem swap_fst_eq_filter (b : List Char) (P Q : List (Nat × Nat))
    (hQsort : Q.Pairwise (fun p q => p.1 < q.1))
    (hmem : ∀ i j, (i, j) ∈ Q ↔ (j, i) ∈ P)
    (hbound : ∀ pr ∈ P, pr.2 < b.length) :
    Q.map Prod.fst = (List.range b.length).filter (fun j => (P.map Prod.snd).contains j) := by
  apply sorted_lt_eq_of_mem_iff
  · exact List.Pairwise.map Prod.fst (fun _ _ h => h) hQsort
  · exact (List.pairwise_lt_range b.length).filter _
  · intro x
    constructor
    · intro hx
      obtain ⟨⟨x0, y⟩, hq, hfst⟩ := List.mem_map.mp hx
      have hx0 : x0 = x := hfst
      subst hx0
      have hP : (y, x0) ∈ P := (hmem x0 y).mp hq
      refine List.mem_filter.mpr ⟨List.mem_range.mpr ?_, ?_⟩
      · simpa using hbound (y, x0) hP
      · exact contains_true_of_mem (List.mem_map.mpr ⟨(y, x0), hP, rfl⟩)
    · intro hx
      obtain ⟨_, hc⟩ := List.mem_filter.mp hx
      have hxmem : x ∈ P.map Prod.snd := by
        simpa [List.contains, List.elem_eq_mem] using hc
      obtain ⟨⟨y, x0⟩, hp, hsnd⟩ := List.mem_map.mp hxmem
      have hx0 : x0 = x := hsnd
      subst hx0
      exact List.mem_map.mpr ⟨(x0, y), (hmem x0 y).mpr hp, rfl⟩

theorem countP_zip_ne_comm : ∀ (l1 l2 : List Char),
    ((l1.zip l2).countP fun pr => pr.1 ≠ pr.2) =
    ((l2.zip l1).countP fun pr => pr.1 ≠ pr.2)
  | [], l2 => by cases l2 <;> rfl
  | _ :: _, [] => rfl
  | c :: l1, d :: l2 => by
    rw [List.zip_cons_cons, List.zip_cons_cons, List.countP_cons, List.countP_cons,
      countP_zip_ne_comm l1 l2]
    congr 1
    by_cases h : c = d
    · subst h
      rfl
    · simp [h, Ne.symm h]

theorem jwT_comm (a b : List Char) (mw : Int) :
    jwT b a (jwPairs b a mw) = jwT a b (jwPairs a b mw) := by
  have hQfst : (jwPairs b a mw).map Prod.fst =
      (List.range b.length).filter (fun j => ((jwPairs a b mw).map Prod.snd).contains j) := by
    refine swap_fst_eq_filter b (jwPairs a b mw) (jwPairs b a mw)
      (jwPairs_fst_sorted b a mw) (fun i j => mem_jwPairs_swap b a mw i j) ?_
    intro pr hpr
    obtain ⟨c, _, hc2⟩ := jwPairs_sound a b mw pr hpr
    exact get_some_lt_length hc2
  have hPfst : (jwPairs a b mw).map Prod.fst =
      (List.range a.length).filter (fun j => ((jwPairs b a mw).map Prod.snd).contains j) := by
    refine swap_fst_eq_filter a (jwPairs b a mw) (jwPairs a b mw)
      (jwPairs_fst_sorted a b mw) (fun i j => mem_jwPairs_swap a b mw i j) ?_
    intro pr hpr
    obtain ⟨c, _, hc2⟩ := jwPairs_sound b a mw pr hpr
    exact get_some_lt_length hc2
  simp only [jwT]
  rw [← hPfst, ← hQfst, List.map_map, List.map_map]
  have hfa : ((fun j => a.getD j ' ') ∘ Prod.fst) = (fun pr : Nat × Nat => a.getD pr.1 ' ') :=
    funext (fun pr => rfl)
  have hfb : ((fun j => b.getD j ' ') ∘ Prod.fst) = (fun pr : Nat × Nat => b.getD pr.1 ' ') :=
    funext (fun pr => rfl)
  rw [hfa, hfb]
  rw [countP_zip_ne_comm]

theorem jwPrefixLen_comm (a b : List Char) :
    ∀ (fuel l : Nat), jwPrefixLen a b fuel l = jwPrefixLen b a fuel l
  | 0, _ => rfl
  | fuel + 1, l => by
    rw [jwPrefixLen, jwPrefixLen]
    by_cases h : a.get? l = b.get? l
    · rw [if_pos h, if_pos h.symm, jwPrefixLen_comm a b fuel (l + 1)]
    · rw [if_neg h, if_neg (fun h2 => h h2.symm)]

/-- Symmetry of the full Jaro-Winkler similarity. -/
theorem jaroWinkler_comm (s1 s2 : String) : jaroWinkler s1 s2 = jaroWinkler s2 s1 := by
  simp only [jaroWinkler]
  by_cases h0 : s1.length = 0 ∨ s2.length = 0
  · rw [if_pos h0, if_pos (show s2.length = 0 ∨ s1.length = 0 from Or.symm h0)]
  · rw [if_neg h0,
      if_neg (show ¬(s2.length = 0 ∨ s1.length = 0) from fun h => h0 (Or.symm h))]
    have hmw : (max ((lowerChars s2).length : Int) ((lowerChars s1).length : Int)) / 2 - 1 =
        (max ((lowerChars s1).length : Int) ((lowerChars s2).length : Int)) / 2 - 1 := by
      rw [max_comm]
    rw [hmw]
    set a := lowerChars s1
    set b := lowerChars s2
    set mw : Int := (max (a.length : Int) (b.length : Int)) / 2 - 1 with hmwdef
    rw [jwPairs_length_comm b a mw]
    by_cases hm : (jwPairs a b mw).length = 0
    · rw [if_pos hm, if_pos hm]
    · rw [if_neg hm, if_neg hm]
      rw [jwT_comm a b mw, jwPrefixLen_comm b a 4 0]
      ring

theorem jaroWinkler_empty_right (s : String) : jaroWinkler s "" = 0 := by
  simp [jaroWinkler]

theorem jaroWinkler_empty_left (s : String) : jaroWinkler "" s = 0 := by
  simp [jaroWinkler]

end RMP

/-- C8 counterexample: the spec claims `jaroWinkler(s,s) = 1` for every
non-empty `s`, but for the one-character string "a" the match window
`floor(max(1,1)/2) - 1 = -1` makes the scan window empty, no character is
matched, and the similarity is `0`, not `1`. -/
theorem C8_counterexample :
    RMP.jaroWinkler "a" "a" = 0 ∧ "a" ≠ "" ∧ (0 : ℚ) ≠ 1 := by
  refine ⟨by decide, by decide, by norm_num⟩

/-- C8 (amended): the Jaro-Winkler primitive is symmetric —
`jaroWinkler a b = jaroWinkler b a` for all strings — and `jaroWinkler s s = 1`
for every string `s` of length at least 2 (for a one-character string the
match window is `-1` and the result is `0`), while `jaroWinkler` returns `0`
whenever either argument is the empty string. -/
theorem C8_amended_jw_algebra :
    (∀ s1 s2 : String, RMP.jaroWinkler s1 s2 = RMP.jaroWinkler s2 s1) ∧
    (∀ s : String, 2 ≤ s.length → RMP.jaroWinkler s s = 1) ∧
    (∀ s : String, RMP.jaroWinkler s "" = 0 ∧ RMP.jaroWinkler "" s = 0) :=
  ⟨RMP.jaroWinkler_comm, RMP.jaroWinkler_self,
    fun s => ⟨RMP.jaroWinkler_empty_right s, RMP.jaroWinkler_empty_left s⟩⟩

/-- Witness for C8: the amended theorem applied at concrete strings. -/
theorem C8_amended_jw_algebra_witness :
    RMP.jaroWinkler "ab" "xy" = RMP.jaroWinkler "xy" "ab" ∧
    (2 ≤ String.length "ab" ∧ RMP.jaroWinkler "ab" "ab" = 1) ∧
    RMP.jaroWinkler "ab" "" = 0 :=
  ⟨C8_amended_jw_algebra.1 "ab" "xy",
    ⟨by decide, C8_amended_jw_algebra.2.1 "ab" (by decide)⟩,
    (C8_amended_jw_algebra.2.2 "ab").1⟩
